import Mathlib

/-!
Shallow embedding of the LaTeX-to-plaintext converter and the mathtext
sanitizer of latexclip.py, together with proofs about the claims of the
specification.  Strings are modelled as lists of characters; each regex
or string pass of the Python code is embedded as an executable scanner
that mirrors the leftmost-match / non-greedy semantics of the original.
Scanners that jump over a matched span are written with an explicit fuel
argument, decremented once per step, and are wrapped with the length of
the input as fuel; every step consumes at least one input character, so
the fuel never runs out for the wrapper (the exhausted-fuel branches are
unreachable there).
-/

namespace LatexClip

/-- Python str.isspace and regex whitespace, restricted to the ASCII range
that the converter actually manipulates. -/
def pyWs (c : Char) : Bool :=
  c == ' ' || c == '\t' || c == '\n' || c == '\x0b' || c == '\x0c' || c == '\r'

/-- Regex word character [A-Za-z0-9_], used for word boundaries. -/
def isWordChar (c : Char) : Bool :=
  (('A' ≤ c && c ≤ 'Z') || ('a' ≤ c && c ≤ 'z') || ('0' ≤ c && c ≤ '9') || c == '_')

/-- ASCII alphanumeric class [A-Za-z0-9] of the sub/superscript regexes. -/
def isAlnumA (c : Char) : Bool :=
  (('A' ≤ c && c ≤ 'Z') || ('a' ≤ c && c ≤ 'z') || ('0' ≤ c && c ≤ '9'))

/-- ASCII lower-casing, for the case-insensitive otherwise test. -/
def toLowerA (c : Char) : Char :=
  if 'A' ≤ c && c ≤ 'Z' then Char.ofNat (c.toNat + 32) else c

/-- Number of backslash characters in a string; the termination measure of
the structured-environment loop. -/
def bsCount (l : List Char) : Nat := l.count '\\'

/-- Python str.replace with explicit fuel: replace every non-overlapping
occurrence of p by r, scanning left to right. -/
def replaceAllF (p r : List Char) : Nat → List Char → List Char
  | _, [] => []
  | 0, _ :: _ => []
  | fuel + 1, c :: t =>
    if !p.isEmpty && p.isPrefixOf (c :: t) then
      r ++ replaceAllF p r fuel ((c :: t).drop p.length)
    else c :: replaceAllF p r fuel t

/-- Python str.replace. -/
def replaceAll (p r : List Char) (l : List Char) : List Char :=
  replaceAllF p r l.length l

/-- Collapse of every whitespace run to a single space (re.sub of a
whitespace-run pattern by one space); the flag records whether the
previous character was whitespace. -/
def collapseGo (prevWs : Bool) : List Char → List Char
  | [] => []
  | c :: t =>
    if pyWs c then
      if prevWs then collapseGo true t else ' ' :: collapseGo true t
    else c :: collapseGo false t

/-- Collapse of whitespace runs to single spaces. -/
def collapseWs (l : List Char) : List Char := collapseGo false l

/-- Python str.strip on the left. -/
def stripL (l : List Char) : List Char := l.dropWhile pyWs

/-- Python str.strip on the right. -/
def stripR (l : List Char) : List Char := (l.reverse.dropWhile pyWs).reverse

/-- Python str.strip. -/
def stripWs (l : List Char) : List Char := stripR (stripL l)

/-- Whitespace normalization at the end of several passes: collapse runs
to single spaces, then trim both ends. -/
def normWs (l : List Char) : List Char := stripWs (collapseWs l)

/-- Find the first occurrence of character c; return the part before it and
the part after it. -/
def findCh (c : Char) (l : List Char) : Option (List Char × List Char) :=
  match l with
  | [] => none
  | x :: t =>
    if x = c then some ([], t)
    else (findCh c t).map (fun pr => (x :: pr.1, pr.2))

/-- Find the first occurrence of the pattern p as a contiguous substring;
return the part before it and the part after it. -/
def findSub (p : List Char) (l : List Char) : Option (List Char × List Char) :=
  if p.isPrefixOf l then some ([], l.drop p.length)
  else
    match l with
    | [] => none
    | c :: t => (findSub p t).map (fun pr => (c :: pr.1, pr.2))

/-- Join a list of pieces with a separator. -/
def joinSep (sep : List Char) : List (List Char) → List Char
  | [] => []
  | [x] => x
  | x :: y :: t => x ++ sep ++ joinSep sep (y :: t)

theorem findCh_sound (c : Char) (l a b : List Char)
    (h : findCh c l = some (a, b)) : l = a ++ c :: b := by
  induction l generalizing a with
  | nil => simp [findCh] at h
  | cons x t ih =>
    by_cases hx : x = c
    · simp [findCh, hx] at h
      simp [← h.1, ← h.2, hx]
    · simp only [findCh, if_neg hx, Option.map_eq_some'] at h
      obtain ⟨⟨qa, qb⟩, hq, hq2⟩ := h
      simp at hq2
      obtain ⟨h1, h2⟩ := hq2
      subst h2
      cases h1
      simp [ih _ hq]

theorem findCh_len (c : Char) (l a b : List Char)
    (h : findCh c l = some (a, b)) : b.length < l.length := by
  have := findCh_sound c l a b h
  subst this
  simp
  omega

theorem findSub_sound (p : List Char) : ∀ l a b : List Char,
    findSub p l = some (a, b) → l = a ++ p ++ b := by
  intro l
  induction l with
  | nil =>
    intro a b h
    rw [findSub] at h
    by_cases hp : p.isPrefixOf ([] : List Char)
    · rw [if_pos hp] at h
      have hp2 : p = [] := List.prefix_nil.mp (List.isPrefixOf_iff_prefix.mp hp)
      simp at h
      simp [h.1, h.2, hp2]
    · rw [if_neg hp] at h
      simp at h
  | cons c t ih =>
    intro a b h
    rw [findSub] at h
    by_cases hp : p.isPrefixOf (c :: t)
    · rw [if_pos hp] at h
      simp at h
      obtain ⟨h1, h2⟩ := h
      have hx : p <+: (c :: t) := List.isPrefixOf_iff_prefix.mp hp
      obtain ⟨r, hr⟩ := hx
      subst h1
      rw [← h2, ← hr]
      simp [← hr, List.drop_left]
    · rw [if_neg hp] at h
      simp only [Option.map_eq_some'] at h
      obtain ⟨⟨qa, qb⟩, hq, hq2⟩ := h
      simp at hq2
      obtain ⟨h1, h2⟩ := hq2
      subst h2
      cases h1
      simp [ih _ _ hq]

theorem findSub_len (p l a b : List Char) (hp : p ≠ [])
    (h : findSub p l = some (a, b)) : b.length < l.length := by
  have := findSub_sound p l a b h
  subst this
  have : 0 < p.length := List.length_pos.mpr hp
  simp
  omega

/-- Sentinel for an escaped opening brace. -/
def laceTok : List Char := "__LACE_BRACE__".data

/-- Sentinel for an escaped closing brace. -/
def raceTok : List Char := "__RACE_BRACE__".data

/-- Sentinel for an escaped ampersand. -/
def ampTok : List Char := "__LATEXCLIP_ESC_AMP__".data

/-- Apply a sequence of str.replace steps, one pair after the other. -/
def applyPairs (ps : List (List Char × List Char)) (l : List Char) : List Char :=
  match ps with
  | [] => l
  | (p, r) :: t => applyPairs t (replaceAll p r l)

/-- Removal of display-math dollar pairs, with fuel: the first two dollars
open, the next two close, the enclosed content is kept (non-greedy). -/
def dollar2F : Nat → List Char → List Char
  | _, [] => []
  | 0, _ :: _ => []
  | fuel + 1, c :: t =>
    if c = '$' && t.head? == some '$' then
      match findSub "$$".data (t.drop 1) with
      | some (content, rest) => content ++ dollar2F fuel rest
      | none => c :: dollar2F fuel t
    else c :: dollar2F fuel t

/-- Removal of display-math dollar pairs. -/
def dollar2 (l : List Char) : List Char := dollar2F l.length l

/-- Removal of inline-math dollar pairs, dollar to next dollar, with fuel. -/
def dollar1F : Nat → List Char → List Char
  | _, [] => []
  | 0, _ :: _ => []
  | fuel + 1, c :: t =>
    if c = '$' then
      match findCh '$' t with
      | some (content, rest) => content ++ dollar1F fuel rest
      | none => c :: dollar1F fuel t
    else c :: dollar1F fuel t

/-- Removal of inline-math dollar pairs. -/
def dollar1 (l : List Char) : List Char := dollar1F l.length l

/-- The TEXT_MACROS table, in source order. -/
def textCmds : List (List Char) :=
  ["text".data, "textbf".data, "textit".data, "textrm".data, "textsf".data,
   "texttt".data, "operatorname".data, "mathrm".data, "mathbf".data,
   "mathit".data, "mathsf".data, "mathtt".data]

/-- Shape check for the optional star and the opening brace that follow a
text-wrapper command name; returns the input after the opening brace. -/
def starBrace (r : List Char) : Option (List Char) :=
  match r with
  | [] => none
  | c :: rr =>
    if c = '{' then some rr
    else if c = '*' then
      match rr with
      | [] => none
      | c2 :: rr2 => if c2 = '{' then some rr2 else none
    else none

theorem starBrace_len (r rr : List Char) (h : starBrace r = some rr) :
    rr.length < r.length := by
  match r with
  | [] => simp [starBrace] at h
  | c :: r1 =>
    simp only [starBrace] at h
    by_cases hc : c = '{'
    · rw [if_pos hc] at h
      simp at h
      simp [← h]
    · rw [if_neg hc] at h
      by_cases hs : c = '*'
      · rw [if_pos hs] at h
        match r1 with
        | [] => simp at h
        | c2 :: rr2 =>
          simp only at h
          by_cases hc2 : c2 = '{'
          · rw [if_pos hc2] at h
            simp at h
            subst h
            simp only [List.length_cons]
            omega
          · rw [if_neg hc2] at h; simp at h
      · rw [if_neg hs] at h; simp at h

/-- Try the alternation of text-wrapper command names at the position right
after a backslash: the name, an optional star, an opening brace and a
brace-free group.  Returns the raw group and the rest of the input. -/
def tryTextCmd (names : List (List Char)) (l : List Char) :
    Option (List Char × List Char) :=
  match names with
  | [] => none
  | n :: ns =>
    if n.isPrefixOf l then
      match starBrace (l.drop n.length) with
      | some rr =>
        match findCh '}' rr with
        | some x => some x
        | none => tryTextCmd ns l
      | none => tryTextCmd ns l
    else tryTextCmd ns l

theorem tryTextCmd_len (names : List (List Char)) (l a b : List Char)
    (h : tryTextCmd names l = some (a, b)) : b.length < l.length := by
  induction names with
  | nil => simp [tryTextCmd] at h
  | cons n ns ih =>
    rw [tryTextCmd] at h
    by_cases hp : n.isPrefixOf l
    · rw [if_pos hp] at h
      revert h
      match hsb : starBrace (l.drop n.length) with
      | some rr =>
        simp only
        have hrr : rr.length < l.length := by
          have h1 := starBrace_len _ _ hsb
          have h2 : (l.drop n.length).length ≤ l.length := by
            simp [List.length_drop]
          omega
        match hfc : findCh '}' rr with
        | some (x1, x2) =>
          simp only
          intro h
          simp at h
          have := findCh_len '}' rr x1 x2 hfc
          obtain ⟨h1, h2⟩ := h
          subst h2
          omega
        | none => simp only; exact ih
      | none => simp only; exact ih
    · rw [if_neg hp] at h
      exact ih h

/-- The unwrap_text helper of the source: escaped spaces become spaces,
whitespace is collapsed and trimmed, the protected ampersand returns. -/
def unwrap_text (inner : List Char) : List Char :=
  replaceAll ampTok "&".data (normWs (replaceAll "\\ ".data " ".data inner))

/-- The text-macro unwrapping pass over the whole string, with fuel. -/
def textPassF : Nat → List Char → List Char
  | _, [] => []
  | 0, _ :: _ => []
  | fuel + 1, c :: t =>
    if c = '\\' then
      match tryTextCmd textCmds t with
      | some (inner, rest) => unwrap_text inner ++ textPassF fuel rest
      | none => c :: textPassF fuel t
    else c :: textPassF fuel t

/-- The text-macro unwrapping pass. -/
def textPass (l : List Char) : List Char := textPassF l.length l

/-- First command of a list that matches as a plain prefix; returns it and
the rest of the input. -/
def tryPick (names : List (List Char)) (l : List Char) :
    Option (List Char × List Char) :=
  match names with
  | [] => none
  | n :: ns =>
    if n.isPrefixOf l then some (n, l.drop n.length) else tryPick ns l

theorem tryPick_len (names : List (List Char)) (l a b : List Char)
    (h : tryPick names l = some (a, b)) : b.length ≤ l.length := by
  induction names with
  | nil => simp [tryPick] at h
  | cons n ns ih =>
    rw [tryPick] at h
    by_cases hp : n.isPrefixOf l
    · rw [if_pos hp] at h
      simp at h
      rw [← h.2]
      simp [List.length_drop]
    · rw [if_neg hp] at h
      exact ih h

theorem tryPick_mem (names : List (List Char)) (l a b : List Char)
    (h : tryPick names l = some (a, b)) :
    a ∈ names ∧ a <+: l ∧ b = l.drop a.length := by
  induction names with
  | nil => simp [tryPick] at h
  | cons n ns ih =>
    rw [tryPick] at h
    by_cases hp : n.isPrefixOf l
    · rw [if_pos hp] at h
      simp at h
      refine ⟨by simp [h.1], ?_, by simp [← h.1, ← h.2]⟩
      rw [← h.1]
      exact List.isPrefixOf_iff_prefix.mp hp
    · rw [if_neg hp] at h
      obtain ⟨h1, h2, h3⟩ := ih h
      exact ⟨by simp [h1], h2, h3⟩

/-- First function name that matches as a prefix and is followed by a word
boundary; mirrors the de-escaping regex for operator names. -/
def tryFunc (names : List (List Char)) (l : List Char) :
    Option (List Char × List Char) :=
  match names with
  | [] => none
  | n :: ns =>
    if n.isPrefixOf l &&
        (match (l.drop n.length).head? with
         | none => true
         | some c => !isWordChar c) then
      some (n, l.drop n.length)
    else tryFunc ns l

theorem tryFunc_len (names : List (List Char)) (l a b : List Char)
    (h : tryFunc names l = some (a, b)) : b.length ≤ l.length := by
  induction names with
  | nil => simp [tryFunc] at h
  | cons n ns ih =>
    rw [tryFunc] at h
    by_cases hp : (n.isPrefixOf l &&
        (match (l.drop n.length).head? with
         | none => true
         | some c => !isWordChar c)) = true
    · rw [if_pos hp] at h
      simp at h
      rw [← h.2]
      simp [List.length_drop]
    · rw [if_neg hp] at h
      exact ih h

/-- The operator names whose backslash is stripped. -/
def funcNames : List (List Char) :=
  ["sin".data, "cos".data, "tan".data, "log".data, "ln".data, "det".data,
   "dim".data, "lim".data, "exp".data, "deg".data, "sec".data, "csc".data,
   "cot".data]

/-- The Greek letter names, in the order of the source alternation. -/
def greekNames : List (List Char) :=
  ["alpha".data, "beta".data, "gamma".data, "delta".data, "epsilon".data,
   "zeta".data, "eta".data, "theta".data, "iota".data, "kappa".data,
   "lambda".data, "mu".data, "nu".data, "xi".data, "pi".data, "rho".data,
   "sigma".data, "tau".data, "upsilon".data, "phi".data, "chi".data,
   "psi".data, "omega".data, "Gamma".data, "Delta".data, "Theta".data,
   "Lambda".data, "Xi".data, "Pi".data, "Sigma".data, "Upsilon".data,
   "Phi".data, "Psi".data, "Omega".data]

/-- Replacement of unescaped double-backslash row breaks by a semicolon and
a space.  The prev argument is the original preceding character, for the
lookbehind; the skip flag swallows the second backslash of a replaced
pair. -/
def rbGo (prev : Option Char) (skip : Bool) : List Char → List Char
  | [] => []
  | c :: t =>
    if skip then rbGo (some c) false t
    else if (c == '\\') && (t.head? == some '\\') && !(prev == some '\\') then
      ';' :: ' ' :: rbGo prev true t
    else c :: rbGo (some c) false t

/-- The residual row-break pass. -/
def rowBreakPass (l : List Char) : List Char := rbGo none false l

/-- Normalization of spacing around a column separator, with fuel: any
whitespace-run, ampersand, whitespace-run sequence becomes a single spaced
ampersand. -/
def ampPassF : Nat → List Char → List Char
  | _, [] => []
  | 0, _ :: _ => []
  | fuel + 1, c :: t =>
    if c = '&' then ' ' :: '&' :: ' ' :: ampPassF fuel (t.dropWhile pyWs)
    else if pyWs c then
      match t.dropWhile pyWs with
      | '&' :: r2 => ' ' :: '&' :: ' ' :: ampPassF fuel (r2.dropWhile pyWs)
      | _ => (c :: t.takeWhile pyWs) ++ ampPassF fuel (t.dropWhile pyWs)
    else c :: ampPassF fuel t

/-- The ampersand-spacing pass. -/
def ampPass (l : List Char) : List Char := ampPassF l.length l

/-- The operator-name de-escaping pass, with fuel. -/
def funcPassF : Nat → List Char → List Char
  | _, [] => []
  | 0, _ :: _ => []
  | fuel + 1, c :: t =>
    if c = '\\' then
      match tryFunc funcNames t with
      | some (n, rest) => n ++ funcPassF fuel rest
      | none => c :: funcPassF fuel t
    else c :: funcPassF fuel t

/-- The operator-name de-escaping pass. -/
def funcPass (l : List Char) : List Char := funcPassF l.length l

/-- The Greek-letter de-escaping pass, with fuel. -/
def greekPassF : Nat → List Char → List Char
  | _, [] => []
  | 0, _ :: _ => []
  | fuel + 1, c :: t =>
    if c = '\\' then
      match tryPick greekNames t with
      | some (n, rest) => n ++ greekPassF fuel rest
      | none => c :: greekPassF fuel t
    else c :: greekPassF fuel t

/-- The Greek-letter de-escaping pass. -/
def greekPass (l : List Char) : List Char := greekPassF l.length l

/-- The spacing-command table, in source order. -/
def spacePairs : List (List Char × List Char) :=
  [("\\,".data, " ".data), ("\\;".data, " ".data), ("\\:".data, " ".data),
   ("\\!".data, []), ("\\quad".data, " ".data), ("\\qquad".data, " ".data),
   ("~".data, " ".data)]

/-- The symbol-substitution table, in source order. -/
def symbolPairs : List (List Char × List Char) :=
  [("\\cdot".data, "·".data), ("\\times".data, "×".data),
   ("\\pm".data, "±".data), ("\\mp".data, "∓".data),
   ("\\leq".data, "≤".data), ("\\geq".data, "≥".data),
   ("\\neq".data, "≠".data), ("\\approx".data, "≈".data),
   ("\\sim".data, "~".data), ("\\infty".data, "∞".data),
   ("\\partial".data, "∂".data), ("\\nabla".data, "∇".data)]

/-- The indexed-root rewriting pass, with fuel: a root with an index
becomes a power with a reciprocal exponent. -/
def sqrtIdxPassF : Nat → List Char → List Char
  | _, [] => []
  | 0, _ :: _ => []
  | fuel + 1, c :: t =>
    if (c == '\\') && "sqrt[".data.isPrefixOf t then
      match findCh ']' (t.drop 5) with
      | some (n, r2) =>
        match r2 with
        | '{' :: r3 =>
          match findCh '}' r3 with
          | some (x, rest) =>
            '(' :: (x ++ ")^(1/".data ++ n ++ ')' :: sqrtIdxPassF fuel rest)
          | none => c :: sqrtIdxPassF fuel t
        | _ => c :: sqrtIdxPassF fuel t
      | none => c :: sqrtIdxPassF fuel t
    else c :: sqrtIdxPassF fuel t

/-- The indexed-root rewriting pass. -/
def sqrtIdxPass (l : List Char) : List Char := sqrtIdxPassF l.length l

/-- The plain-root rewriting pass, with fuel. -/
def sqrtPassF : Nat → List Char → List Char
  | _, [] => []
  | 0, _ :: _ => []
  | fuel + 1, c :: t =>
    if (c == '\\') && "sqrt\x7b".data.isPrefixOf t then
      match findCh '}' (t.drop 5) with
      | some (x, rest) => "sqrt(".data ++ x ++ ')' :: sqrtPassF fuel rest
      | none => c :: sqrtPassF fuel t
    else c :: sqrtPassF fuel t

/-- The plain-root rewriting pass. -/
def sqrtPass (l : List Char) : List Char := sqrtPassF l.length l

/-- Balanced-brace extraction after the opening brace: depth tracking,
returning the enclosed content and the rest after the matching brace. -/
def ebGo (l : List Char) (d : Nat) : Option (List Char × List Char) :=
  match l with
  | [] => none
  | c :: t =>
    if c = '}' then
      if d = 1 then some ([], t)
      else (ebGo t (d - 1)).map (fun pr => ('}' :: pr.1, pr.2))
    else if c = '{' then (ebGo t (d + 1)).map (fun pr => ('{' :: pr.1, pr.2))
    else (ebGo t d).map (fun pr => (c :: pr.1, pr.2))

theorem ebGo_len (l : List Char) (d : Nat) (a b : List Char)
    (h : ebGo l d = some (a, b)) : a.length + 1 + b.length = l.length := by
  induction l generalizing d a b with
  | nil => simp [ebGo] at h
  | cons c t ih =>
    rw [ebGo] at h
    by_cases hc : c = '}'
    · rw [if_pos hc] at h
      by_cases hd : d = 1
      · rw [if_pos hd] at h
        simp at h
        obtain ⟨h1, h2⟩ := h
        subst h1
        subst h2
        simp
        omega
      · rw [if_neg hd] at h
        simp only [Option.map_eq_some'] at h
        obtain ⟨⟨qa, qb⟩, hq, hq2⟩ := h
        simp at hq2
        obtain ⟨h1, h2⟩ := hq2
        subst h2
        rw [← h1]
        have := ih _ _ _ hq
        simp
        omega
    · rw [if_neg hc] at h
      by_cases hb : c = '{'
      · rw [if_pos hb] at h
        simp only [Option.map_eq_some'] at h
        obtain ⟨⟨qa, qb⟩, hq, hq2⟩ := h
        simp at hq2
        obtain ⟨h1, h2⟩ := hq2
        subst h2
        rw [← h1]
        have := ih _ _ _ hq
        simp
        omega
      · rw [if_neg hb] at h
        simp only [Option.map_eq_some'] at h
        obtain ⟨⟨qa, qb⟩, hq, hq2⟩ := h
        simp at hq2
        obtain ⟨h1, h2⟩ := hq2
        subst h2
        rw [← h1]
        have := ih _ _ _ hq
        simp
        omega

/-- The extract_braced helper of the source, on the suffix that starts at
the expected opening brace. -/
def extract_braced (l : List Char) : Option (List Char × List Char) :=
  match l with
  | [] => none
  | c :: t => if c = '{' then ebGo t 1 else none

theorem extract_braced_len (l a b : List Char)
    (h : extract_braced l = some (a, b)) : a.length + 2 + b.length = l.length := by
  match l with
  | [] => simp [extract_braced] at h
  | c :: t =>
    rw [extract_braced] at h
    by_cases hc : c = '{'
    · rw [if_pos hc] at h
      have := ebGo_len t 1 a b h
      simp only [List.length_cons]
      omega
    · rw [if_neg hc] at h
      simp at h

/-- The fraction-like command names, in source order. -/
def fracCmds : List (List Char) :=
  ["\\frac".data, "\\dfrac".data, "\\tfrac".data]

/-- The binomial-like command names, in source order. -/
def binomCmds : List (List Char) :=
  ["\\binom".data, "\\dbinom".data, "\\tbinom".data]

/-- The recursive fraction rewriting scan of the source, with fuel. -/
def fracF : Nat → List Char → List Char
  | _, [] => []
  | 0, _ :: _ => []
  | fuel + 1, c :: t =>
    match tryPick fracCmds (c :: t) with
    | some (_, r0) =>
      match extract_braced (r0.dropWhile pyWs) with
      | some (num, r2) =>
        match extract_braced (r2.dropWhile pyWs) with
        | some (den, r4) =>
          '(' :: (fracF fuel num ++ ")/(".data ++
            fracF fuel den ++ ')' :: fracF fuel r4)
        | none => c :: fracF fuel t
      | none => c :: fracF fuel t
    | none => c :: fracF fuel t

/-- The recursive fraction rewriting scan of the source. -/
def replace_frac_like (l : List Char) : List Char := fracF l.length l

/-- The recursive binomial rewriting scan of the source, with fuel. -/
def binomF : Nat → List Char → List Char
  | _, [] => []
  | 0, _ :: _ => []
  | fuel + 1, c :: t =>
    match tryPick binomCmds (c :: t) with
    | some (_, r0) =>
      match extract_braced (r0.dropWhile pyWs) with
      | some (upper, r2) =>
        match extract_braced (r2.dropWhile pyWs) with
        | some (lower, r4) =>
          "C(".data ++ binomF fuel upper ++ ", ".data ++
            binomF fuel lower ++ ')' :: binomF fuel r4
        | none => c :: binomF fuel t
      | none => c :: binomF fuel t
    | none => c :: binomF fuel t

/-- The recursive binomial rewriting scan of the source. -/
def replace_binomials (l : List Char) : List Char := binomF l.length l

/-- Brace characters, for the strip of sub- and superscript groups. -/
def isBraceCh (c : Char) : Bool := c == '{' || c == '}'

/-- Python str.strip with the two brace characters. -/
def stripBr (l : List Char) : List Char :=
  ((l.dropWhile isBraceCh).reverse.dropWhile isBraceCh).reverse

/-- The first superscript simplification, with fuel: a braced exponent
group loses its braces. -/
def supBracePassF : Nat → List Char → List Char
  | _, [] => []
  | 0, _ :: _ => []
  | fuel + 1, c :: t =>
    if c = '^' && t.head? == some '{' then
      match findCh '}' (t.drop 1) with
      | some (x, rest) => '^' :: (x ++ supBracePassF fuel rest)
      | none => c :: supBracePassF fuel t
    else c :: supBracePassF fuel t

/-- The first superscript simplification. -/
def supBracePass (l : List Char) : List Char := supBracePassF l.length l

/-- The subscript normalization pass, with fuel: a braced group or a
single alphanumeric character after an underscore. -/
def subPassF : Nat → List Char → List Char
  | _, [] => []
  | 0, _ :: _ => []
  | fuel + 1, [c] => c :: subPassF fuel []
  | fuel + 1, c :: c2 :: t2 =>
    if c = '_' then
      if c2 = '{' then
        match findCh '}' t2 with
        | some (x, rest) =>
          '_' :: (stripBr ('{' :: (x ++ ['}'])) ++ subPassF fuel rest)
        | none => c :: subPassF fuel (c2 :: t2)
      else if isAlnumA c2 then '_' :: c2 :: subPassF fuel t2
      else c :: subPassF fuel (c2 :: t2)
    else c :: subPassF fuel (c2 :: t2)

/-- The subscript normalization pass. -/
def subPass (l : List Char) : List Char := subPassF l.length l

/-- Characters accepted as a bare superscript by the second superscript
pass. -/
def isSupChar (c : Char) : Bool :=
  isAlnumA c || c == '+' || c == '-' || c == '*' || c == '/'

/-- The superscript normalization pass, with fuel: a braced group or a
single character of the accepted class after a caret. -/
def supPassF : Nat → List Char → List Char
  | _, [] => []
  | 0, _ :: _ => []
  | fuel + 1, [c] => c :: supPassF fuel []
  | fuel + 1, c :: c2 :: t2 =>
    if c = '^' then
      if c2 = '{' then
        match findCh '}' t2 with
        | some (x, rest) =>
          '^' :: (stripBr ('{' :: (x ++ ['}'])) ++ supPassF fuel rest)
        | none => c :: supPassF fuel (c2 :: t2)
      else if isSupChar c2 then '^' :: c2 :: supPassF fuel t2
      else c :: supPassF fuel (c2 :: t2)
    else c :: supPassF fuel (c2 :: t2)

/-- The superscript normalization pass. -/
def supPass (l : List Char) : List Char := supPassF l.length l

/-- The kind of a structured environment. -/
inductive EnvKind where
  | matrix : EnvKind
  | cases : EnvKind
  | aligned : EnvKind
deriving DecidableEq

/-- The structured-environment table of the source. -/
def envTable : List (List Char × EnvKind) :=
  [("matrix".data, .matrix), ("pmatrix".data, .matrix),
   ("bmatrix".data, .matrix), ("Bmatrix".data, .matrix),
   ("vmatrix".data, .matrix), ("Vmatrix".data, .matrix),
   ("smallmatrix".data, .matrix), ("array".data, .matrix),
   ("cases".data, .cases), ("aligned".data, .aligned),
   ("align".data, .aligned), ("align*".data, .aligned),
   ("alignat".data, .aligned), ("alignat*".data, .aligned),
   ("alignedat".data, .aligned), ("gather".data, .aligned),
   ("gather*".data, .aligned), ("split".data, .aligned),
   ("multline".data, .aligned), ("multline*".data, .aligned)]

/-- Kind lookup for an environment name. -/
def lookupKind (n : List Char) : Option EnvKind :=
  (envTable.find? (fun pr => pr.1 == n)).map (fun pr => pr.2)

/-- The delimiter table for matrix-like environments. -/
def matrixDelims : List (List Char × (List Char × List Char)) :=
  [("matrix".data, ("[".data, "]".data)),
   ("pmatrix".data, ("(".data, ")".data)),
   ("bmatrix".data, ("[".data, "]".data)),
   ("Bmatrix".data, ("\x7b".data, "\x7d".data)),
   ("vmatrix".data, ("|".data, "|".data)),
   ("Vmatrix".data, ("‖".data, "‖".data)),
   ("smallmatrix".data, ("[".data, "]".data)),
   ("cases".data, ("\x7b".data, "\x7d".data)),
   ("array".data, ("[".data, "]".data))]

/-- The delimiters of an environment, after the trailing stars of its name
are removed, defaulting to square brackets. -/
def delimsOf (n : List Char) : List Char × List Char :=
  let base := (n.reverse.dropWhile (fun c => c == '*')).reverse
  ((matrixDelims.find? (fun pr => pr.1 == base)).map (fun pr => pr.2)).getD
    ("[".data, "]".data)

/-- Split on unescaped double-backslash row breaks.  The prev argument is
the original preceding character, for the lookbehind; the skip flag
swallows the second backslash of a separator. -/
def splitRB (prev : Option Char) (skip : Bool) : List Char → List (List Char)
  | [] => [[]]
  | c :: t =>
    if skip then splitRB (some c) false t
    else if (c == '\\') && (t.head? == some '\\') && !(prev == some '\\') then
      [] :: splitRB prev true t
    else (splitRB (some c) false t).modifyHead (c :: ·)

/-- Split on unescaped ampersands, tracking the original preceding
character for the lookbehind. -/
def splitAmp (prev : Option Char) : List Char → List (List Char)
  | [] => [[]]
  | c :: t =>
    if (c == '&') && !(prev == some '\\') then
      [] :: splitAmp (some '&') t
    else (splitAmp (some c) t).modifyHead (c :: ·)

/-- Column processing shared by all environment kinds: split on unescaped
ampersands, trim, drop empties, restore the protected ampersand. -/
def procCols (row : List Char) : List (List Char) :=
  (((splitAmp none row).map stripWs).filter (fun x => !x.isEmpty)).map
    (replaceAll ampTok "&".data)

/-- The value column of a cases row: trailing comma or semicolon stripped,
then right-trimmed. -/
def caseValue (v : List Char) : List Char :=
  if (v.getLast? == some ',') || (v.getLast? == some ';') then
    stripR v.dropLast
  else v

/-- The condition of a cases row: the remaining columns joined by spaces,
with leading separators stripped; empty for a single-column row. -/
def caseCond (cols : List (List Char)) : List Char :=
  if 1 < cols.length then
    (joinSep " ".data cols.tail).dropWhile
      (fun c => c == ',' || c == ';' || c == ' ')
  else []

/-- Rendering of one row of a cases environment. -/
def caseRow (cols : List (List Char)) : List Char :=
  let value := caseValue (cols.headD [])
  let cond := caseCond cols
  if cond.isEmpty then value
  else if "otherwise".data.isPrefixOf (cond.map toLowerA) then
    value ++ ' ' :: cond
  else value ++ " if ".data ++ cond

/-- Rendering of one row, by environment kind. -/
def renderRow (kind : EnvKind) (row : List Char) : List Char :=
  let cols := procCols row
  match kind with
  | .aligned => joinSep " ".data cols
  | .cases => caseRow cols
  | .matrix => joinSep ", ".data cols

/-- The format_matrix helper of the source. -/
def format_matrix (env : List Char) (kind : EnvKind) (body : List Char) :
    List Char :=
  let b1 := replaceAll "\\hline".data [] body
  let rows := ((splitRB none false b1).map stripWs).filter (fun r => !r.isEmpty)
  let fr := rows.map (renderRow kind)
  match kind with
  | .aligned => joinSep "; ".data fr
  | .cases => '{' :: (joinSep "; ".data fr ++ ['}'])
  | .matrix =>
    let d := delimsOf env
    d.1 ++ joinSep "; ".data fr ++ d.2

/-- The literal that opens an environment header. -/
def beginTok : List Char := "\\begin\x7b".data

/-- The literal that closes an environment with the given name. -/
def endTokOf (n : List Char) : List Char := "\\end\x7b".data ++ n ++ ['}']

/-- The environment match without a column specifier: the body runs from
right after the header to the first end marker. -/
def envFallback (name : List Char) (kind : EnvKind) (r2 : List Char) :
    Option (List Char × EnvKind × List Char × List Char × List Char) :=
  match findSub (endTokOf name) r2 with
  | some (body, suf) => some (name, kind, [], body, suf)
  | none => none

/-- Attempt to match the environment pattern at the start of the input.
Returns the name, its kind, the column-specifier text that the regex
consumes in front of the body, the body and the rest of the input.  The
optional column specifier is consumed greedily and given up again when no
end marker follows it, matching the backtracking of the regex. -/
def tryEnvAt (l : List Char) :
    Option (List Char × EnvKind × List Char × List Char × List Char) :=
  if beginTok.isPrefixOf l then
    match findCh '}' (l.drop 7) with
    | none => none
    | some (name, r2) =>
      match lookupKind name with
      | none => none
      | some kind =>
        if r2.head? == some '{' then
          match findCh '}' (r2.drop 1) with
          | some (cs, r4) =>
            match findSub (endTokOf name) r4 with
            | some (body, suf) =>
              some (name, kind, '{' :: (cs ++ ['}']), body, suf)
            | none => envFallback name kind r2
          | none => envFallback name kind r2
        else envFallback name kind r2
  else none

/-- Search for the leftmost full environment match; returns the text in
front of it together with the parts of the match. -/
def findEnv (l : List Char) :
    Option (List Char × List Char × EnvKind × List Char × List Char) :=
  match tryEnvAt l with
  | some (n, k, _, b, suf) => some ([], n, k, b, suf)
  | none =>
    match l with
    | [] => none
    | c :: t => (findEnv t).map (fun r => (c :: r.1, r.2))

/-- One iteration of the structured-environment loop: replace the leftmost
match by its rendering; none when no match remains. -/
def envStep (l : List Char) : Option (List Char) :=
  match findEnv l with
  | none => none
  | some (pre, n, k, b, suf) => some (pre ++ format_matrix n k b ++ suf)

/-- The structured-environment while loop, with explicit fuel; none models
an unfinished loop. -/
def envLoopFuel (fuel : Nat) (l : List Char) : Option (List Char) :=
  match findEnv l with
  | none => some l
  | some (pre, n, k, b, suf) =>
    match fuel with
    | 0 => none
    | fu + 1 => envLoopFuel fu (pre ++ format_matrix n k b ++ suf)

/-- The structured-environment loop as run by the converter: the fuel
bound suffices, as proved below. -/
def envLoopRun (l : List Char) : List Char :=
  (envLoopFuel (bsCount l + 1) l).getD l

/-- The conversion stages that run before the environment loop: line-ending
normalization, escape protection, math-delimiter stripping, text-macro
unwrapping and spacing-command substitution. -/
def preEnv (l : List Char) : List Char :=
  applyPairs spacePairs
    (textPass
      (dollar1
        (dollar2
          (replaceAll "\\&".data ampTok
            (replaceAll "\\\x7d".data raceTok
              (replaceAll "\\\x7b".data laceTok
                (replaceAll "\r".data "\n".data
                  (replaceAll "\r\n".data "\n".data l))))))))

/-- The conversion stages that run after the environment loop: residual row
breaks, ampersand spacing, operator names, symbols, Greek letters, roots,
fractions, binomials, scripts, sizing commands, residual braces,
placeholder restoration and final whitespace normalization. -/
def postEnv (l : List Char) : List Char :=
  normWs
    (replaceAll ampTok "&".data
      (replaceAll raceTok "\x7d".data
        (replaceAll laceTok "\x7b".data
          (replaceAll "\x7d".data ")".data
            (replaceAll "\x7b".data "(".data
              (replaceAll "\\right".data []
                (replaceAll "\\left".data []
                  (supPass
                    (subPass
                      (supBracePass
                        (replace_binomials
                          (replace_frac_like
                            (sqrtPass
                              (sqrtIdxPass
                                (greekPass
                                  (applyPairs symbolPairs
                                    (funcPass
                                      (ampPass
                                        (rowBreakPass l)))))))))))))))))))

/-- The convert pipeline over character lists. -/
def convert (l : List Char) : List Char := postEnv (envLoopRun (preEnv l))

/-- The latex_to_plaintext function of the source. -/
def latex_to_plaintext (s : String) : String := String.mk (convert s.data)

/-- The converter with the partiality of its only loop made explicit: the
environment loop may in principle run out of fuel, in which case no result
is produced.  The totality theorem shows this never happens. -/
def latexToPlaintextOpt (s : String) : Option String :=
  (envLoopFuel (bsCount (preEnv s.data) + 1) (preEnv s.data)).map
    (fun m => String.mk (postEnv m))

/-- Python slice text[2:-2] followed by strip, as used by the sanitizer on
delimited input. -/
def sliceTrim2 (l : List Char) : List Char :=
  stripWs ((l.drop 2).take (l.length - 4))

/-- Escape of the four reserved mathtext characters that are not already
escaped, with the original preceding character as lookbehind state. -/
def escapeLits (prev : Option Char) (l : List Char) : List Char :=
  match l with
  | [] => []
  | c :: t =>
    if (c == '%' || c == '&' || c == '#' || c == '$') && !(prev == some '\\') then
      '\\' :: c :: escapeLits (some c) t
    else c :: escapeLits (some c) t

/-- The convert_text_block helper of the sanitizer. -/
def convert_text_block (content : List Char) : List Char :=
  let c1 := replaceAll "\\ ".data " ".data content
  let c2 := replaceAll "~".data " ".data c1
  let c3 := normWs c2
  let c4 := escapeLits none c3
  let c5 := replaceAll " ".data "\\ ".data c4
  "\\mathrm\x7b".data ++ c5 ++ ['}']

/-- The two block commands rewritten by the sanitizer, in source order. -/
def sanTextCmds : List (List Char) := ["text".data, "operatorname".data]

/-- The text-block rewriting pass of the sanitizer, with fuel. -/
def sanTextPassF : Nat → List Char → List Char
  | _, [] => []
  | 0, _ :: _ => []
  | fuel + 1, c :: t =>
    if c = '\\' then
      match tryTextCmd sanTextCmds t with
      | some (content, rest) => convert_text_block content ++ sanTextPassF fuel rest
      | none => c :: sanTextPassF fuel t
    else c :: sanTextPassF fuel t

/-- The text-block rewriting pass of the sanitizer. -/
def sanTextPass (l : List Char) : List Char := sanTextPassF l.length l

/-- The sanitize_for_mathtext pipeline over character lists. -/
def sanitizeL (l : List Char) : List Char :=
  let t0 := stripWs l
  let t1 :=
    if "$$".data.isPrefixOf t0 && "$$".data.isSuffixOf t0 then sliceTrim2 t0
    else t0
  let t2 :=
    if "\\[".data.isPrefixOf t1 && "\\]".data.isSuffixOf t1 then sliceTrim2 t1
    else t1
  let alreadyMath := "$".data.isPrefixOf t2 && "$".data.isSuffixOf t2
  let t3 := sanTextPass t2
  let t4 := escapeLits none t3
  let t5 := replaceAll "\\left".data [] t4
  let t6 := replaceAll "\\right".data [] t5
  let t7 := normWs t6
  if !alreadyMath && !(t7.contains '\n') then '$' :: (t7 ++ ['$']) else t7

/-- The sanitize_for_mathtext function of the source. -/
def sanitize_for_mathtext (s : String) : String := String.mk (sanitizeL s.data)

/-! Whitespace normalization of the converter output. -/

/-- No two adjacent whitespace characters. -/
def noDoubleWs : List Char → Bool
  | [] => true
  | [_] => true
  | a :: b :: t => !(pyWs a && pyWs b) && noDoubleWs (b :: t)

/-- The first character, when present, is not whitespace. -/
def headNotWs (l : List Char) : Bool :=
  match l.head? with
  | none => true
  | some c => !pyWs c

/-- The last character, when present, is not whitespace. -/
def lastNotWs (l : List Char) : Bool :=
  match l.getLast? with
  | none => true
  | some c => !pyWs c

/-- A string is whitespace-normalized when it is trimmed on both ends and
has no whitespace run of length two or more. -/
def wsNormalized (l : List Char) : Bool := headNotWs l && lastNotWs l && noDoubleWs l

theorem noDouble_cons (a : Char) (l : List Char) :
    noDoubleWs (a :: l) =
      ((match l.head? with
        | none => true
        | some b => !(pyWs a && pyWs b)) && noDoubleWs l) := by
  cases l with
  | nil => simp [noDoubleWs]
  | cons b t => rfl

theorem collapse_inv (l : List Char) :
    noDoubleWs (collapseGo false l) = true ∧
      noDoubleWs (collapseGo true l) = true ∧
      headNotWs (collapseGo true l) = true := by
  induction l with
  | nil => refine ⟨rfl, rfl, rfl⟩
  | cons c t ih =>
    obtain ⟨ih1, ih2, ih3⟩ := ih
    by_cases hc : pyWs c = true
    · refine ⟨?_, ?_, ?_⟩
      · simp only [collapseGo, hc, if_true, if_false, Bool.false_eq_true]
        rw [noDouble_cons]
        simp only [Bool.and_eq_true]
        constructor
        · revert ih3
          unfold headNotWs
          cases hh : (collapseGo true t).head? with
          | none => simp
          | some x => simp; intro hx; simp [hx]
        · exact ih2
      · simp only [collapseGo, hc, if_true]
        exact ih2
      · simp only [collapseGo, hc, if_true]
        exact ih3
    · have hc2 : pyWs c = false := by revert hc; cases pyWs c <;> simp
      have key : noDoubleWs (c :: collapseGo false t) = true := by
        rw [noDouble_cons]
        simp only [Bool.and_eq_true]
        refine ⟨?_, ih1⟩
        cases (collapseGo false t).head? with
        | none => simp
        | some x => simp [hc2]
      refine ⟨?_, ?_, ?_⟩
      · simp only [collapseGo, hc2, Bool.false_eq_true, if_false]
        exact key
      · simp only [collapseGo, hc2, Bool.false_eq_true, if_false]
        exact key
      · simp only [collapseGo, hc2, Bool.false_eq_true, if_false]
        simp [headNotWs, hc2]

theorem noDouble_append_right (a t : List Char)
    (h : noDoubleWs (a ++ t) = true) : noDoubleWs t = true := by
  induction a with
  | nil => exact h
  | cons x a2 ih =>
    rw [List.cons_append, noDouble_cons] at h
    simp only [Bool.and_eq_true] at h
    exact ih h.2

theorem noDouble_dropWhile (p : Char → Bool) (l : List Char)
    (h : noDoubleWs l = true) : noDoubleWs (l.dropWhile p) = true := by
  have := List.takeWhile_append_dropWhile (p := p) (l := l)
  exact noDouble_append_right (l.takeWhile p) (l.dropWhile p) (by rw [this]; exact h)

theorem headNotWs_dropWhile (l : List Char) :
    headNotWs (l.dropWhile pyWs) = true := by
  induction l with
  | nil => rfl
  | cons c t ih =>
    by_cases hc : pyWs c = true
    · rw [List.dropWhile_cons, if_pos hc]
      exact ih
    · have hc2 : pyWs c = false := by revert hc; cases pyWs c <;> simp
      rw [List.dropWhile_cons, if_neg (by simp [hc2])]
      simp [headNotWs, hc2]

/-- The pairwise relation behind noDoubleWs. -/
def wsRel (a b : Char) : Prop := ¬(pyWs a = true ∧ pyWs b = true)

theorem noDouble_iff_chain (l : List Char) :
    noDoubleWs l = true ↔ List.Chain' wsRel l := by
  induction l with
  | nil => simp [noDoubleWs]
  | cons a t ih =>
    cases t with
    | nil => simp [noDoubleWs, wsRel]
    | cons b t2 =>
      rw [List.chain'_cons]
      have hh : noDoubleWs (a :: b :: t2) = (!(pyWs a && pyWs b) && noDoubleWs (b :: t2)) := rfl
      rw [hh, Bool.and_eq_true]
      have hw : ((!(pyWs a && pyWs b)) = true) ↔ wsRel a b := by
        unfold wsRel
        cases ha : pyWs a <;> cases hb : pyWs b <;> simp
      rw [hw, ih]

theorem noDouble_reverse (l : List Char) :
    noDoubleWs l.reverse = true ↔ noDoubleWs l = true := by
  rw [noDouble_iff_chain, noDouble_iff_chain, List.chain'_reverse]
  constructor
  · intro h
    exact h.imp (fun a b hab => fun hc => hab ⟨hc.2, hc.1⟩)
  · intro h
    exact h.imp (fun a b hab => fun hc => hab ⟨hc.2, hc.1⟩)

theorem headNotWs_of_prefix (p l : List Char) (hp : p <+: l)
    (h : headNotWs l = true) : headNotWs p = true := by
  cases p with
  | nil => rfl
  | cons x p2 =>
    obtain ⟨r, hr⟩ := hp
    rw [← hr] at h
    exact h

theorem stripR_isPrefix_self (l : List Char) : stripR l <+: l := by
  unfold stripR
  have h1 : l.reverse.dropWhile pyWs <:+ l.reverse := List.dropWhile_suffix pyWs
  have := List.reverse_prefix.mpr h1
  simpa using this

theorem noDouble_stripR (l : List Char) (h : noDoubleWs l = true) :
    noDoubleWs (stripR l) = true := by
  unfold stripR
  rw [noDouble_reverse]
  exact noDouble_dropWhile pyWs l.reverse ((noDouble_reverse l).mpr h)

theorem lastNotWs_stripR (l : List Char) : lastNotWs (stripR l) = true := by
  unfold stripR lastNotWs
  rw [List.getLast?_reverse]
  exact headNotWs_dropWhile l.reverse

theorem wsNorm_normWs (l : List Char) : wsNormalized (normWs l) = true := by
  unfold normWs stripWs
  set Y := collapseWs l with hY
  have hnd : noDoubleWs Y = true := (collapse_inv l).1
  have hndZ : noDoubleWs (stripL Y) = true := noDouble_dropWhile pyWs Y hnd
  have hheadZ : headNotWs (stripL Y) = true := headNotWs_dropWhile Y
  unfold wsNormalized
  simp only [Bool.and_eq_true]
  refine ⟨⟨?_, ?_⟩, ?_⟩
  · exact headNotWs_of_prefix _ _ (stripR_isPrefix_self (stripL Y)) hheadZ
  · exact lastNotWs_stripR (stripL Y)
  · exact noDouble_stripR (stripL Y) hndZ

theorem mk_data (X : List Char) : (String.mk X).data = X := rfl

theorem wsNorm_postEnv (m : List Char) : wsNormalized (postEnv m) = true :=
  wsNorm_normWs _

/-- Claim C9: the converter output is whitespace-normalized: trimmed at
both ends, with every internal whitespace run collapsed to one character. -/
theorem claim_C9 (s : String) : wsNormalized (latex_to_plaintext s).data = true := by
  rw [show latex_to_plaintext s = String.mk (convert s.data) from rfl, mk_data]
  rw [show (∀ l, convert l = postEnv (envLoopRun (preEnv l))) from fun l => rfl]
  exact wsNorm_postEnv _

/-- Helper for claim C10: an all-whitespace string strips to nothing. -/
theorem stripWs_all_ws (l : List Char) (h : ∀ c ∈ l, pyWs c = true) :
    stripWs l = [] := by
  have h1 : stripL l = [] := by
    unfold stripL
    rw [List.dropWhile_eq_nil_iff]
    intro c hc
    exact h c hc
  unfold stripWs
  rw [h1]
  rfl

/-- Claim C10: on whitespace-only input (the empty string included) the
sanitizer still wraps the empty content, returning exactly the two-dollar
string. -/
theorem claim_C10 (s : String) (h : ∀ c ∈ s.data, pyWs c = true) :
    sanitize_for_mathtext s = "$$" := by
  show String.mk (sanitizeL s.data) = "$$"
  unfold sanitizeL
  rw [stripWs_all_ws s.data h]
  rfl

/-- Witness for claim C10 at a concrete whitespace-only input. -/
theorem claim_C10_witness : sanitize_for_mathtext " " = "$$" :=
  claim_C10 " " (by decide)

set_option maxRecDepth 1000000 in
set_option maxHeartbeats 1000000 in
/-- Claim C3: the cases environment of the specification renders exactly as
stated, with trailing commas stripped, the otherwise row emitted without
an if, rows joined by semicolons and the whole wrapped in the cases
delimiters (which the brace pass then turns into parentheses). -/
theorem claim_C3 :
    latex_to_plaintext
        "\\begin\x7bcases\x7d x^2, & x > 0 \\\\ 0, & \\text\x7botherwise\x7d \\end\x7bcases\x7d" =
      "(x^2 if x > 0; 0 otherwise)" := by
  decide

set_option maxRecDepth 1000000 in
set_option maxHeartbeats 1000000 in
/-- Counterexample for claim C4: a protected ampersand inside a text block
that sits inside a matrix body is restored to a bare ampersand before the
environment pass and is then consumed as a column separator, so it is not
preserved in the output. -/
theorem claim_C4_cex :
    latex_to_plaintext "\\begin\x7bbmatrix\x7d\\text\x7ba \\& b\x7d\\end\x7bbmatrix\x7d" = "[a, b]" ∧
      (latex_to_plaintext "\\begin\x7bbmatrix\x7d\\text\x7ba \\& b\x7d\\end\x7bbmatrix\x7d").data.count '&' = 0 := by
  constructor
  · decide
  · decide

set_option maxRecDepth 1000000 in
set_option maxHeartbeats 1000000 in
/-- Counterexample for claim C5: on input already wrapped in a single
dollar pair, the literal-escaping pass escapes the two delimiters, so the
output starts with a backslash rather than staying dollar-wrapped. -/
theorem claim_C5_cex :
    sanitize_for_mathtext "$x$" = "\\$x\\$" ∧
      (sanitize_for_mathtext "$x$").data.head? = some '\\' := by
  constructor
  · decide
  · decide

set_option maxRecDepth 1000000 in
set_option maxHeartbeats 1000000 in
/-- Counterexample for claim C6: the root regex group cannot span nested
braces, so a fraction inside a root is cut at the first closing brace; the
repository test suite records the same output. -/
theorem claim_C6_cex :
    latex_to_plaintext "\\sqrt\x7b\\frac\x7ba\x7d\x7bb\x7d\x7d" = "sqrt(\\frac(a)(b))" ∧
      sqrtPass "\\sqrt\x7b\\frac\x7ba\x7d\x7bb\x7d\x7d".data ≠
        "sqrt(\\frac\x7ba\x7d\x7bb\x7d)".data := by
  constructor
  · decide
  · decide

set_option maxRecDepth 1000000 in
set_option maxHeartbeats 1000000 in
/-- Counterexample for claim C7: input that already contains the literal
placeholder text, with no escaped brace anywhere, is rewritten to a brace
by the restoration pass instead of passing through unchanged. -/
theorem claim_C7_cex :
    latex_to_plaintext "__LACE_BRACE__" = "\x7b" ∧
      latex_to_plaintext "__LACE_BRACE__" ≠ "__LACE_BRACE__" := by
  constructor
  · decide
  · decide

/-! Claim C1: recursive fraction rewriting on balanced arguments. -/

/-- Balance check for a brace group: scanning with surplus d, the depth
never goes negative and returns to zero at the end.  balOk 0 A holds
exactly when A is a balanced-brace string. -/
def balOk (d : Nat) : List Char → Bool
  | [] => d == 0
  | c :: t =>
    if c = '{' then balOk (d + 1) t
    else if c = '}' then decide (0 < d) && balOk (d - 1) t
    else balOk d t

theorem ebGo_balanced : ∀ (A : List Char) (e : Nat) (rest : List Char),
    balOk e A = true → ebGo (A ++ '}' :: rest) (e + 1) = some (A, rest) := by
  intro A
  induction A with
  | nil =>
    intro e rest h
    simp [balOk] at h
    subst h
    simp [ebGo]
  | cons c t ih =>
    intro e rest h
    rw [List.cons_append, ebGo]
    by_cases hc : c = '}'
    · subst hc
      rw [balOk] at h
      rw [if_neg (by decide), if_pos rfl] at h
      simp only [Bool.and_eq_true, decide_eq_true_eq] at h
      obtain ⟨he, hb⟩ := h
      obtain ⟨e2, rfl⟩ : ∃ e2, e = e2 + 1 := ⟨e - 1, by omega⟩
      rw [if_pos rfl, if_neg (by omega)]
      have hb2 : balOk e2 t = true := by simpa using hb
      rw [show e2 + 1 + 1 - 1 = e2 + 1 from by omega, ih e2 rest hb2]
      rfl
    · by_cases hb : c = '{'
      · subst hb
        rw [balOk] at h
        rw [if_pos rfl] at h
        rw [if_neg (by decide), if_pos rfl, ih (e + 1) rest h]
        rfl
      · rw [balOk] at h
        rw [if_neg hb, if_neg hc] at h
        rw [if_neg hc, if_neg hb, ih e rest h]
        rfl

theorem fracF_nil (f : Nat) : fracF f [] = [] := by
  cases f <;> rfl

theorem fracF_congr : ∀ f1 f2 l : _, l.length ≤ f1 → l.length ≤ f2 →
    fracF f1 l = fracF f2 l := by
  intro f1
  induction f1 using Nat.strong_induction_on with
  | _ f1 ih =>
    intro f2 l h1 h2
    match l with
    | [] => rw [fracF_nil, fracF_nil]
    | c :: t =>
      match f1, h1 with
      | g1 + 1, h1 =>
        match f2, h2 with
        | g2 + 1, h2 =>
          rw [fracF, fracF]
          have hlt : g1 < g1 + 1 := Nat.lt_succ_self g1
          cases htp : tryPick fracCmds (c :: t) with
          | none =>
            simp only [htp]
            rw [ih g1 hlt g2 t (by simp at h1; omega) (by simp at h2; omega)]
          | some pr =>
            obtain ⟨cmd, r0⟩ := pr
            simp only [htp]
            have hr0 : r0.length ≤ t.length + 1 := by
              have := tryPick_len fracCmds (c :: t) cmd r0 htp
              simpa using this
            cases heb : extract_braced (r0.dropWhile pyWs) with
            | none =>
              simp only [heb]
              rw [ih g1 hlt g2 t (by simp at h1; omega) (by simp at h2; omega)]
            | some pr2 =>
              obtain ⟨num, r2⟩ := pr2
              simp only [heb]
              have hw1 : (r0.dropWhile pyWs).length ≤ r0.length :=
                (List.dropWhile_sublist _).length_le
              have hnum := extract_braced_len _ num r2 heb
              cases heb2 : extract_braced (r2.dropWhile pyWs) with
              | none =>
                simp only [heb2]
                rw [ih g1 hlt g2 t (by simp at h1; omega) (by simp at h2; omega)]
              | some pr3 =>
                obtain ⟨den, r4⟩ := pr3
                simp only [heb2]
                have hw2 : (r2.dropWhile pyWs).length ≤ r2.length :=
                  (List.dropWhile_sublist _).length_le
                have hden := extract_braced_len _ den r4 heb2
                simp only [List.length_cons] at h1 h2
                rw [ih g1 hlt g2 num (by omega) (by omega),
                  ih g1 hlt g2 den (by omega) (by omega),
                  ih g1 hlt g2 r4 (by omega) (by omega)]

theorem fracF_step (fuel : Nat) (c : Char) (t cmd r0 num r2 den r4 : List Char)
    (h1 : tryPick fracCmds (c :: t) = some (cmd, r0))
    (h2 : extract_braced (r0.dropWhile pyWs) = some (num, r2))
    (h3 : extract_braced (r2.dropWhile pyWs) = some (den, r4)) :
    fracF (fuel + 1) (c :: t) =
      '(' :: (fracF fuel num ++ ")/(".data ++ fracF fuel den ++ ')' :: fracF fuel r4) := by
  rw [fracF]
  simp only [h1, h2, h3]

theorem tryPick_frac (X : List Char) :
    tryPick fracCmds ('\\' :: 'f' :: 'r' :: 'a' :: 'c' :: X) =
      some ("\\frac".data, X) := by
  simp [tryPick, fracCmds, List.isPrefixOf]

theorem dropWhile_brace (Y : List Char) : ('{' :: Y).dropWhile pyWs = '{' :: Y := rfl

theorem extract_braced_cons (Z : List Char) : extract_braced ('{' :: Z) = ebGo Z 1 := rfl

/-- The fraction-stage identity on balanced arguments: a frac of balanced
groups A and B rewrites to the parenthesized quotient of the recursively
rewritten A and B. -/
theorem replace_frac_like_frac (A B : List Char)
    (hA : balOk 0 A = true) (hB : balOk 0 B = true) :
    replace_frac_like
        ("\\frac\x7b".data ++ A ++ "\x7d\x7b".data ++ B ++ "\x7d".data) =
      '(' :: (replace_frac_like A ++ ")/(".data ++ replace_frac_like B ++ [')']) := by
  have hin : "\\frac\x7b".data ++ A ++ "\x7d\x7b".data ++ B ++ "\x7d".data =
      '\\' :: 'f' :: 'r' :: 'a' :: 'c' :: '{' :: (A ++ '}' :: '{' :: (B ++ ['}'])) := by
    simp
  rw [hin]
  set L := '\\' :: 'f' :: 'r' :: 'a' :: 'c' :: '{' :: (A ++ '}' :: '{' :: (B ++ ['}'])) with hL
  have hlen : L.length = (A.length + B.length + 8) + 1 := by
    rw [hL]
    simp
    omega
  have h1 : tryPick fracCmds L = some ("\\frac".data, '{' :: (A ++ '}' :: '{' :: (B ++ ['}']))) := by
    rw [hL]
    exact tryPick_frac _
  have h2 : extract_braced (('{' :: (A ++ '}' :: '{' :: (B ++ ['}']))).dropWhile pyWs) =
      some (A, '{' :: (B ++ ['}'])) := by
    rw [dropWhile_brace, extract_braced_cons]
    have := ebGo_balanced A 0 ('{' :: (B ++ ['}'])) hA
    simpa using this
  have h3 : extract_braced (('{' :: (B ++ ['}'])).dropWhile pyWs) = some (B, []) := by
    rw [dropWhile_brace, extract_braced_cons]
    have := ebGo_balanced B 0 [] hB
    simpa using this
  have hstep := fracF_step (A.length + B.length + 8) '\\'
    ('f' :: 'r' :: 'a' :: 'c' :: '{' :: (A ++ '}' :: '{' :: (B ++ ['}'])))
    "\\frac".data ('{' :: (A ++ '}' :: '{' :: (B ++ ['}'])))
    A ('{' :: (B ++ ['}'])) B [] h1 h2 h3
  have hwrap : replace_frac_like L = fracF L.length L := rfl
  rw [hwrap, hlen]
  rw [hstep]
  rw [fracF_nil]
  have hA2 : fracF (A.length + B.length + 8) A = replace_frac_like A := by
    have : replace_frac_like A = fracF A.length A := rfl
    rw [this]
    exact fracF_congr _ _ A (by omega) (by omega)
  have hB2 : fracF (A.length + B.length + 8) B = replace_frac_like B := by
    have : replace_frac_like B = fracF B.length B := rfl
    rw [this]
    exact fracF_congr _ _ B (by omega) (by omega)
  rw [hA2, hB2]

theorem tryPick_dfrac (X : List Char) :
    tryPick fracCmds ('\\' :: 'd' :: 'f' :: 'r' :: 'a' :: 'c' :: X) =
      some ("\\dfrac".data, X) := by
  simp [tryPick, fracCmds, List.isPrefixOf]

theorem tryPick_tfrac (X : List Char) :
    tryPick fracCmds ('\\' :: 't' :: 'f' :: 'r' :: 'a' :: 'c' :: X) =
      some ("\\tfrac".data, X) := by
  simp [tryPick, fracCmds, List.isPrefixOf]

/-- The fraction-stage identity for any command of the fraction table: if
the alternation picks the command in front of the two balanced groups,
the result is the parenthesized quotient of the recursively rewritten
groups. -/
theorem replace_frac_like_cmd (c0 : Char) (cmdt A B : List Char)
    (hA : balOk 0 A = true) (hB : balOk 0 B = true)
    (htp : tryPick fracCmds
        (c0 :: (cmdt ++ '{' :: (A ++ '}' :: '{' :: (B ++ ['}'])))) =
      some (c0 :: cmdt, '{' :: (A ++ '}' :: '{' :: (B ++ ['}'])))) :
    replace_frac_like (c0 :: (cmdt ++ '{' :: (A ++ '}' :: '{' :: (B ++ ['}'])))) =
      '(' :: (replace_frac_like A ++ ")/(".data ++ replace_frac_like B ++ [')']) := by
  have h2 : extract_braced (('{' :: (A ++ '}' :: '{' :: (B ++ ['}']))).dropWhile pyWs) =
      some (A, '{' :: (B ++ ['}'])) := by
    rw [dropWhile_brace, extract_braced_cons]
    have h5 := ebGo_balanced A 0 ('{' :: (B ++ ['}'])) hA
    simpa using h5
  have h3 : extract_braced (('{' :: (B ++ ['}'])).dropWhile pyWs) = some (B, []) := by
    rw [dropWhile_brace, extract_braced_cons]
    have h5 := ebGo_balanced B 0 [] hB
    simpa using h5
  have hstep := fracF_step (cmdt.length + A.length + B.length + 4) c0
    (cmdt ++ '{' :: (A ++ '}' :: '{' :: (B ++ ['}'])))
    (c0 :: cmdt) ('{' :: (A ++ '}' :: '{' :: (B ++ ['}'])))
    A ('{' :: (B ++ ['}'])) B [] htp h2 h3
  have hwrap : replace_frac_like (c0 :: (cmdt ++ '{' :: (A ++ '}' :: '{' :: (B ++ ['}'])))) =
      fracF (c0 :: (cmdt ++ '{' :: (A ++ '}' :: '{' :: (B ++ ['}'])))).length
        (c0 :: (cmdt ++ '{' :: (A ++ '}' :: '{' :: (B ++ ['}'])))) := rfl
  have hlen : (c0 :: (cmdt ++ '{' :: (A ++ '}' :: '{' :: (B ++ ['}'])))).length =
      (cmdt.length + A.length + B.length + 4) + 1 := by
    simp only [List.length_cons, List.length_append, List.length_nil]
    omega
  rw [hwrap, hlen, hstep, fracF_nil]
  have hA2 : fracF (cmdt.length + A.length + B.length + 4) A = replace_frac_like A := by
    have h6 : replace_frac_like A = fracF A.length A := rfl
    rw [h6]
    exact fracF_congr _ _ A (by omega) (by omega)
  have hB2 : fracF (cmdt.length + A.length + B.length + 4) B = replace_frac_like B := by
    have h6 : replace_frac_like B = fracF B.length B := rfl
    rw [h6]
    exact fracF_congr _ _ B (by omega) (by omega)
  rw [hA2, hB2]

/-- The fraction-stage identity for a dfrac of balanced arguments. -/
theorem replace_frac_like_dfrac (A B : List Char)
    (hA : balOk 0 A = true) (hB : balOk 0 B = true) :
    replace_frac_like
        ("\\dfrac\x7b".data ++ A ++ "\x7d\x7b".data ++ B ++ "\x7d".data) =
      '(' :: (replace_frac_like A ++ ")/(".data ++ replace_frac_like B ++ [')']) := by
  have hin : "\\dfrac\x7b".data ++ A ++ "\x7d\x7b".data ++ B ++ "\x7d".data =
      '\\' :: (('d' :: 'f' :: 'r' :: 'a' :: 'c' :: []) ++
        '{' :: (A ++ '}' :: '{' :: (B ++ ['}']))) := by
    simp
  rw [hin]
  exact replace_frac_like_cmd '\\' ('d' :: 'f' :: 'r' :: 'a' :: 'c' :: []) A B hA hB
    (tryPick_dfrac ('{' :: (A ++ '}' :: '{' :: (B ++ ['}']))))

/-- The fraction-stage identity for a tfrac of balanced arguments. -/
theorem replace_frac_like_tfrac (A B : List Char)
    (hA : balOk 0 A = true) (hB : balOk 0 B = true) :
    replace_frac_like
        ("\\tfrac\x7b".data ++ A ++ "\x7d\x7b".data ++ B ++ "\x7d".data) =
      '(' :: (replace_frac_like A ++ ")/(".data ++ replace_frac_like B ++ [')']) := by
  have hin : "\\tfrac\x7b".data ++ A ++ "\x7d\x7b".data ++ B ++ "\x7d".data =
      '\\' :: (('t' :: 'f' :: 'r' :: 'a' :: 'c' :: []) ++
        '{' :: (A ++ '}' :: '{' :: (B ++ ['}']))) := by
    simp
  rw [hin]
  exact replace_frac_like_cmd '\\' ('t' :: 'f' :: 'r' :: 'a' :: 'c' :: []) A B hA hB
    (tryPick_tfrac ('{' :: (A ++ '}' :: '{' :: (B ++ ['}']))))

set_option maxRecDepth 1000000 in
set_option maxHeartbeats 1000000 in
/-- Claim C1: for balanced groups A and B, the fraction pass rewrites a
frac, a dfrac and a tfrac of A and B to the quotient of the recursively
rewritten parts, each in parentheses; and the whole converter realizes
the rewrite on the specification example and on a dfrac and a tfrac. -/
theorem claim_C1 :
    (∀ A B : List Char, balOk 0 A = true → balOk 0 B = true →
      replace_frac_like
          ("\\frac\x7b".data ++ A ++ "\x7d\x7b".data ++ B ++ "\x7d".data) =
        '(' :: (replace_frac_like A ++ ")/(".data ++ replace_frac_like B ++ [')']) ∧
      replace_frac_like
          ("\\dfrac\x7b".data ++ A ++ "\x7d\x7b".data ++ B ++ "\x7d".data) =
        '(' :: (replace_frac_like A ++ ")/(".data ++ replace_frac_like B ++ [')']) ∧
      replace_frac_like
          ("\\tfrac\x7b".data ++ A ++ "\x7d\x7b".data ++ B ++ "\x7d".data) =
        '(' :: (replace_frac_like A ++ ")/(".data ++ replace_frac_like B ++ [')'])) ∧
      latex_to_plaintext "\\frac\x7b1+\\frac\x7b1\x7d\x7bx\x7d\x7d\x7by\x7d" =
        "(1+(1)/(x))/(y)" ∧
      latex_to_plaintext "\\dfrac\x7b1+x\x7d\x7b2\x7d" = "(1+x)/(2)" ∧
      latex_to_plaintext "\\tfrac\x7b1+x\x7d\x7b2\x7d" = "(1+x)/(2)" := by
  refine ⟨?_, by decide, by decide, by decide⟩
  intro A B hA hB
  exact ⟨replace_frac_like_frac A B hA hB, replace_frac_like_dfrac A B hA hB,
    replace_frac_like_tfrac A B hA hB⟩

set_option maxRecDepth 1000000 in
set_option maxHeartbeats 1000000 in
/-- Witness for claim C1 at the balanced arguments of the specification
example. -/
theorem claim_C1_witness :
    balOk 0 "1+\\frac\x7b1\x7d\x7bx\x7d".data = true ∧
    balOk 0 "y".data = true ∧
      (replace_frac_like
          ("\\frac\x7b".data ++ "1+\\frac\x7b1\x7d\x7bx\x7d".data ++
            "\x7d\x7b".data ++ "y".data ++ "\x7d".data) =
        '(' :: (replace_frac_like "1+\\frac\x7b1\x7d\x7bx\x7d".data ++ ")/(".data ++
          replace_frac_like "y".data ++ [')']) ∧
      replace_frac_like
          ("\\dfrac\x7b".data ++ "1+\\frac\x7b1\x7d\x7bx\x7d".data ++
            "\x7d\x7b".data ++ "y".data ++ "\x7d".data) =
        '(' :: (replace_frac_like "1+\\frac\x7b1\x7d\x7bx\x7d".data ++ ")/(".data ++
          replace_frac_like "y".data ++ [')']) ∧
      replace_frac_like
          ("\\tfrac\x7b".data ++ "1+\\frac\x7b1\x7d\x7bx\x7d".data ++
            "\x7d\x7b".data ++ "y".data ++ "\x7d".data) =
        '(' :: (replace_frac_like "1+\\frac\x7b1\x7d\x7bx\x7d".data ++ ")/(".data ++
          replace_frac_like "y".data ++ [')'])) :=
  ⟨by decide, by decide,
    claim_C1.1 "1+\\frac\x7b1\x7d\x7bx\x7d".data "y".data (by decide) (by decide)⟩

/-! Claims C8 and C2: termination of the environment loop and totality of
the converter.  The measure is the number of backslashes: every loop
iteration consumes the two backslashes of its begin and end markers and
the rendering never creates one. -/

theorem bs_append (a b : List Char) : bsCount (a ++ b) = bsCount a + bsCount b := by
  unfold bsCount
  exact List.count_append _ _ _

theorem bs_cons (c : Char) (t : List Char) :
    bsCount (c :: t) = bsCount t + (if c = '\\' then 1 else 0) := by
  unfold bsCount
  rw [List.count_cons]
  simp

theorem bs_sublist (a b : List Char) (h : List.Sublist a b) :
    bsCount a ≤ bsCount b := h.count_le _

theorem bs_drop (l : List Char) (n : Nat) : bsCount (l.drop n) ≤ bsCount l :=
  bs_sublist _ _ (List.drop_sublist n l)

theorem bs_stripL (l : List Char) : bsCount (stripL l) ≤ bsCount l :=
  bs_sublist _ _ (List.dropWhile_sublist _)

theorem bs_reverse (l : List Char) : bsCount l.reverse = bsCount l := by
  unfold bsCount
  exact List.count_reverse _ _

theorem bs_stripR (l : List Char) : bsCount (stripR l) ≤ bsCount l := by
  unfold stripR
  rw [bs_reverse]
  calc bsCount (l.reverse.dropWhile pyWs) ≤ bsCount l.reverse :=
        bs_sublist _ _ (List.dropWhile_sublist _)
    _ = bsCount l := bs_reverse l

theorem bs_stripWs (l : List Char) : bsCount (stripWs l) ≤ bsCount l :=
  le_trans (bs_stripR _) (bs_stripL _)

theorem bs_replaceAllF (p r : List Char) (hr : bsCount r = 0) :
    ∀ fuel l, bsCount (replaceAllF p r fuel l) ≤ bsCount l := by
  intro fuel
  induction fuel with
  | zero =>
    intro l
    cases l with
    | nil => simp [replaceAllF]
    | cons c t => simp [replaceAllF, bsCount]
  | succ g ih =>
    intro l
    cases l with
    | nil => simp [replaceAllF]
    | cons c t =>
      rw [replaceAllF]
      by_cases hp : (!p.isEmpty && p.isPrefixOf (c :: t)) = true
      · rw [if_pos hp]
        rw [bs_append, hr]
        have h1 := ih ((c :: t).drop p.length)
        have h2 := bs_drop (c :: t) p.length
        omega
      · rw [if_neg hp]
        rw [bs_cons, bs_cons]
        have := ih t
        omega

theorem bs_replaceAll (p r : List Char) (hr : bsCount r = 0) (l : List Char) :
    bsCount (replaceAll p r l) ≤ bsCount l :=
  bs_replaceAllF p r hr l.length l

theorem splitRB_ne_nil (prev : Option Char) (skip : Bool) (l : List Char) :
    splitRB prev skip l ≠ [] := by
  induction l generalizing prev skip with
  | nil => simp [splitRB]
  | cons c t ih =>
    rw [splitRB]
    by_cases hs : skip = true
    · rw [if_pos hs]
      exact ih _ _
    · rw [if_neg hs]
      by_cases hm : ((c == '\\') && (t.head? == some '\\') && !(prev == some '\\')) = true
      · rw [if_pos hm]
        simp
      · rw [if_neg hm]
        have := ih (some c) false
        cases hsp : splitRB (some c) false t with
        | nil => exact absurd hsp this
        | cons x xs => simp [List.modifyHead]

theorem sum_modifyHead_cons (c : Char) (L : List (List Char)) (hL : L ≠ []) :
    ((L.modifyHead (c :: ·)).map bsCount).sum =
      (L.map bsCount).sum + (if c = '\\' then 1 else 0) := by
  cases L with
  | nil => exact absurd rfl hL
  | cons x xs =>
    simp [List.modifyHead, bs_cons]
    omega

theorem bs_splitRB (l : List Char) : ∀ prev skip,
    ((splitRB prev skip l).map bsCount).sum ≤ bsCount l := by
  induction l with
  | nil => intro prev skip; simp [splitRB, bsCount]
  | cons c t ih =>
    intro prev skip
    rw [splitRB]
    by_cases hs : skip = true
    · rw [if_pos hs]
      calc ((splitRB (some c) false t).map bsCount).sum ≤ bsCount t := ih _ _
        _ ≤ bsCount (c :: t) := by rw [bs_cons]; omega
    · rw [if_neg hs]
      by_cases hm : ((c == '\\') && (t.head? == some '\\') && !(prev == some '\\')) = true
      · rw [if_pos hm]
        simp only [List.map_cons, List.sum_cons]
        have : bsCount ([] : List Char) = 0 := rfl
        rw [this]
        calc 0 + ((splitRB prev true t).map bsCount).sum
            = ((splitRB prev true t).map bsCount).sum := by omega
          _ ≤ bsCount t := ih _ _
          _ ≤ bsCount (c :: t) := by rw [bs_cons]; omega
      · rw [if_neg hm]
        rw [sum_modifyHead_cons c _ (splitRB_ne_nil _ _ _), bs_cons]
        have := ih (some c) false
        omega

theorem splitAmp_ne_nil (prev : Option Char) (l : List Char) :
    splitAmp prev l ≠ [] := by
  induction l generalizing prev with
  | nil => simp [splitAmp]
  | cons c t ih =>
    rw [splitAmp]
    by_cases hm : ((c == '&') && !(prev == some '\\')) = true
    · rw [if_pos hm]
      simp
    · rw [if_neg hm]
      have := ih (some c)
      cases hsp : splitAmp (some c) t with
      | nil => exact absurd hsp this
      | cons x xs => simp [List.modifyHead]

theorem bs_splitAmp (l : List Char) : ∀ prev,
    ((splitAmp prev l).map bsCount).sum ≤ bsCount l := by
  induction l with
  | nil => intro prev; simp [splitAmp, bsCount]
  | cons c t ih =>
    intro prev
    rw [splitAmp]
    by_cases hm : ((c == '&') && !(prev == some '\\')) = true
    · rw [if_pos hm]
      simp only [List.map_cons, List.sum_cons]
      have : bsCount ([] : List Char) = 0 := rfl
      rw [this]
      have h1 := ih (some '&')
      rw [bs_cons]
      omega
    · rw [if_neg hm]
      rw [sum_modifyHead_cons c _ (splitAmp_ne_nil _ _), bs_cons]
      have := ih (some c)
      omega

theorem bs_joinSep (sep : List Char) (hsep : bsCount sep = 0) :
    ∀ L : List (List Char), bsCount (joinSep sep L) = (L.map bsCount).sum := by
  intro L
  induction L with
  | nil => simp [joinSep, bsCount]
  | cons x xs ih =>
    cases xs with
    | nil => simp [joinSep]
    | cons y t =>
      rw [joinSep, bs_append, bs_append, hsep, ih]
      simp

theorem sum_map_le_of_le (L : List (List Char)) (f : List Char → List Char)
    (hf : ∀ x, bsCount (f x) ≤ bsCount x) :
    ((L.map f).map bsCount).sum ≤ (L.map bsCount).sum := by
  induction L with
  | nil => simp
  | cons x xs ih =>
    simp only [List.map_cons, List.sum_cons]
    have := hf x
    omega

theorem sum_filter_le (L : List (List Char)) (p : List Char → Bool) :
    ((L.filter p).map bsCount).sum ≤ (L.map bsCount).sum := by
  induction L with
  | nil => simp
  | cons x xs ih =>
    rw [List.filter_cons]
    by_cases hp : p x = true
    · rw [if_pos hp]
      simp only [List.map_cons, List.sum_cons]
      omega
    · rw [if_neg hp]
      simp only [List.map_cons, List.sum_cons]
      omega

theorem bs_caseValue (v : List Char) : bsCount (caseValue v) ≤ bsCount v := by
  unfold caseValue
  split
  · exact le_trans (bs_stripR _) (bs_sublist _ _ (List.dropLast_sublist _))
  · exact le_refl _

theorem bs_caseCond (cols : List (List Char)) :
    bsCount (caseCond cols) ≤ (cols.tail.map bsCount).sum := by
  unfold caseCond
  split
  · calc bsCount ((joinSep " ".data cols.tail).dropWhile
          (fun c => c == ',' || c == ';' || c == ' '))
        ≤ bsCount (joinSep " ".data cols.tail) :=
          bs_sublist _ _ (List.dropWhile_sublist _)
      _ = (cols.tail.map bsCount).sum := bs_joinSep _ (by decide) _
  · simp [bsCount]

theorem bs_caseRow (cols : List (List Char)) :
    bsCount (caseRow cols) ≤ (cols.map bsCount).sum := by
  have hsplit : bsCount (cols.headD []) + (cols.tail.map bsCount).sum ≤
      (cols.map bsCount).sum := by
    cases cols with
    | nil => simp [bsCount]
    | cons c0 tl => simp
  have hv := bs_caseValue (cols.headD [])
  have hc := bs_caseCond cols
  have hif : bsCount [' ', 'i', 'f', ' '] = 0 := by decide
  unfold caseRow
  dsimp only
  split
  · omega
  · split
    · rw [bs_append, bs_cons]
      rw [if_neg (by decide : ¬(' ' = '\\'))]
      omega
    · rw [bs_append, bs_append]
      omega

theorem bs_procCols (row : List Char) :
    ((procCols row).map bsCount).sum ≤ bsCount row := by
  unfold procCols
  calc ((((((splitAmp none row).map stripWs).filter
          (fun x => !x.isEmpty)).map (replaceAll ampTok "&".data))).map bsCount).sum
      ≤ ((((splitAmp none row).map stripWs).filter
          (fun x => !x.isEmpty)).map bsCount).sum :=
        sum_map_le_of_le _ _ (fun x => bs_replaceAll _ _ (by decide) x)
    _ ≤ (((splitAmp none row).map stripWs).map bsCount).sum := sum_filter_le _ _
    _ ≤ ((splitAmp none row).map bsCount).sum :=
        sum_map_le_of_le _ _ (fun x => bs_stripWs x)
    _ ≤ bsCount row := bs_splitAmp row none

theorem bs_renderRow (kind : EnvKind) (row : List Char) :
    bsCount (renderRow kind row) ≤ bsCount row := by
  have hp := bs_procCols row
  unfold renderRow
  cases kind with
  | aligned =>
    simp only
    rw [bs_joinSep _ (by decide)]
    exact hp
  | cases =>
    simp only
    exact le_trans (bs_caseRow _) hp
  | matrix =>
    simp only
    rw [bs_joinSep _ (by decide)]
    exact hp

theorem bs_delims (n : List Char) :
    bsCount (delimsOf n).1 = 0 ∧ bsCount (delimsOf n).2 = 0 := by
  unfold delimsOf
  cases hf : matrixDelims.find?
      (fun pr => pr.1 == (n.reverse.dropWhile (fun c => c == '*')).reverse) with
  | none => simp [hf]; constructor <;> decide
  | some pr =>
    have hmem := List.mem_of_find?_eq_some hf
    have hall : ∀ q ∈ matrixDelims, bsCount q.2.1 = 0 ∧ bsCount q.2.2 = 0 := by decide
    simp [hf]
    exact hall pr hmem

theorem bs_format (env : List Char) (kind : EnvKind) (body : List Char) :
    bsCount (format_matrix env kind body) ≤ bsCount body := by
  have hb1 : bsCount (replaceAll "\\hline".data [] body) ≤ bsCount body :=
    bs_replaceAll _ _ (by decide) body
  have hfr : (((((splitRB none false (replaceAll "\\hline".data [] body)).map
      stripWs).filter (fun r => !r.isEmpty)).map (renderRow kind)).map bsCount).sum
        ≤ bsCount body := by
    calc (((((splitRB none false (replaceAll "\\hline".data [] body)).map
          stripWs).filter (fun r => !r.isEmpty)).map (renderRow kind)).map bsCount).sum
        ≤ ((((splitRB none false (replaceAll "\\hline".data [] body)).map
            stripWs).filter (fun r => !r.isEmpty)).map bsCount).sum :=
          sum_map_le_of_le _ _ (fun x => bs_renderRow kind x)
      _ ≤ (((splitRB none false (replaceAll "\\hline".data [] body)).map
            stripWs).map bsCount).sum := sum_filter_le _ _
      _ ≤ ((splitRB none false (replaceAll "\\hline".data [] body)).map
            bsCount).sum := sum_map_le_of_le _ _ (fun x => bs_stripWs x)
      _ ≤ bsCount (replaceAll "\\hline".data [] body) := bs_splitRB _ _ _
      _ ≤ bsCount body := hb1
  cases kind with
  | aligned =>
    have he : format_matrix env .aligned body =
        joinSep "; ".data ((((splitRB none false
          (replaceAll "\\hline".data [] body)).map stripWs).filter
            (fun r => !r.isEmpty)).map (renderRow .aligned)) := rfl
    rw [he, bs_joinSep _ (by decide)]
    exact hfr
  | cases =>
    have he : format_matrix env .cases body =
        '{' :: (joinSep "; ".data ((((splitRB none false
          (replaceAll "\\hline".data [] body)).map stripWs).filter
            (fun r => !r.isEmpty)).map (renderRow .cases)) ++ ['}']) := rfl
    rw [he, bs_cons, bs_append, bs_joinSep _ (by decide)]
    have h1 : bsCount ['}'] = 0 := by decide
    rw [if_neg (by decide : ¬('{' = '\\'))]
    omega
  | matrix =>
    have he : format_matrix env .matrix body =
        (delimsOf env).1 ++ joinSep "; ".data ((((splitRB none false
          (replaceAll "\\hline".data [] body)).map stripWs).filter
            (fun r => !r.isEmpty)).map (renderRow .matrix)) ++ (delimsOf env).2 := rfl
    rw [he, bs_append, bs_append, bs_joinSep _ (by decide)]
    have hd := bs_delims env
    omega

theorem bs_endTok (n : List Char) : bsCount (endTokOf n) = 1 + bsCount n := by
  unfold endTokOf
  rw [bs_append, bs_append]
  have h1 : bsCount "\\end\x7b".data = 1 := by decide
  have h2 : bsCount ['}'] = 0 := by decide
  omega

theorem envFallback_bs (name : List Char) (kind : EnvKind) (r2 : List Char)
    (n : List Char) (k : EnvKind) (cs b suf : List Char)
    (h : envFallback name kind r2 = some (n, k, cs, b, suf)) :
    n = name ∧ bsCount r2 = bsCount b + (1 + bsCount name) + bsCount suf := by
  unfold envFallback at h
  cases hfs : findSub (endTokOf name) r2 with
  | none => rw [hfs] at h; simp at h
  | some pr =>
    obtain ⟨body, s2⟩ := pr
    rw [hfs] at h
    simp at h
    obtain ⟨h1, h2, h3, h4, h5⟩ := h
    subst h1 h4 h5
    refine ⟨rfl, ?_⟩
    have hr2 := findSub_sound _ _ _ _ hfs
    rw [hr2, bs_append, bs_append, bs_endTok]

theorem tryEnvAt_bs (l n : List Char) (k : EnvKind) (cs b suf : List Char)
    (h : tryEnvAt l = some (n, k, cs, b, suf)) :
    bsCount b + bsCount suf + 2 ≤ bsCount l := by
  unfold tryEnvAt at h
  by_cases hb : beginTok.isPrefixOf l
  case neg =>
    rw [if_neg (by simpa using hb)] at h
    simp at h
  case pos =>
    rw [if_pos (by simpa using hb)] at h
    obtain ⟨t0, ht0⟩ := List.isPrefixOf_iff_prefix.mp hb
    have hbl : beginTok.length = 7 := by decide
    have hdrop : l.drop 7 = t0 := by
      rw [← ht0, ← hbl, List.drop_left]
    have hbsl : bsCount l = 1 + bsCount t0 := by
      rw [← ht0, bs_append]
      have : bsCount beginTok = 1 := by decide
      omega
    cases hfc : findCh '}' (l.drop 7) with
    | none => rw [hfc] at h; simp at h
    | some pr =>
      obtain ⟨name, r2⟩ := pr
      rw [hfc] at h
      simp only at h
      have hsname : t0 = name ++ '}' :: r2 := by
        rw [← hdrop]
        exact findCh_sound _ _ _ _ hfc
      have hbst0 : bsCount t0 = bsCount name + bsCount r2 := by
        rw [hsname, bs_append, bs_cons]
        rw [if_neg (by decide : ¬('}' = '\\'))]
        omega
      cases hlk : lookupKind name with
      | none => rw [hlk] at h; simp at h
      | some kind =>
        rw [hlk] at h
        simp only at h
        by_cases hh : (r2.head? == some '{') = true
        · rw [if_pos hh] at h
          cases hfc2 : findCh '}' (r2.drop 1) with
          | none =>
            rw [hfc2] at h
            simp only at h
            obtain ⟨hn2, hr2⟩ := envFallback_bs _ _ _ _ _ _ _ _ h
            omega
          | some pr2 =>
            obtain ⟨cs2, r4⟩ := pr2
            rw [hfc2] at h
            simp only at h
            cases hfs : findSub (endTokOf name) r4 with
            | none =>
              rw [hfs] at h
              simp only at h
              obtain ⟨hn2, hr2⟩ := envFallback_bs _ _ _ _ _ _ _ _ h
              omega
            | some pr3 =>
              obtain ⟨body, suf2⟩ := pr3
              rw [hfs] at h
              simp at h
              obtain ⟨h1, h2, h3, h4, h5⟩ := h
              subst h1 h4 h5
              obtain ⟨r3, hr2c⟩ : ∃ r3, r2 = '{' :: r3 := by
                cases r2 with
                | nil => simp at hh
                | cons c2 t2 =>
                  simp at hh
                  exact ⟨t2, by rw [hh]⟩
              have hr3 : r2.drop 1 = r3 := by rw [hr2c]; rfl
              have hcs := findCh_sound _ _ _ _ hfc2
              rw [hr3] at hcs
              have hsr4 := findSub_sound _ _ _ _ hfs
              have e1 : bsCount r2 = bsCount r3 := by
                rw [hr2c, bs_cons]
                rw [if_neg (by decide : ¬('{' = '\\'))]
                omega
              have e2 : bsCount r3 = bsCount cs2 + bsCount r4 := by
                rw [hcs, bs_append, bs_cons]
                rw [if_neg (by decide : ¬('}' = '\\'))]
                omega
              have e3 : bsCount r4 =
                  bsCount body + (1 + bsCount name) + bsCount suf2 := by
                rw [hsr4, bs_append, bs_append, bs_endTok]
              omega
        · rw [if_neg hh] at h
          obtain ⟨hn2, hr2⟩ := envFallback_bs _ _ _ _ _ _ _ _ h
          omega

theorem findEnv_sound : ∀ l pre n b suf : List Char, ∀ k : EnvKind,
    findEnv l = some (pre, n, k, b, suf) →
    ∃ m cs, l = pre ++ m ∧ tryEnvAt m = some (n, k, cs, b, suf) := by
  intro l
  induction l with
  | nil =>
    intro pre n b suf k h
    cases hta : tryEnvAt [] with
    | some q =>
      obtain ⟨a1, a2, a3, a4, a5⟩ := q
      rw [findEnv, hta] at h
      simp at h
      obtain ⟨h1, h2, h3, h4, h5⟩ := h
      subst h1 h2 h3 h4 h5
      exact ⟨[], a3, rfl, hta⟩
    | none =>
      rw [findEnv, hta] at h
      simp at h
  | cons c t ih =>
    intro pre n b suf k h
    cases hta : tryEnvAt (c :: t) with
    | some q =>
      obtain ⟨a1, a2, a3, a4, a5⟩ := q
      rw [findEnv, hta] at h
      simp at h
      obtain ⟨h1, h2, h3, h4, h5⟩ := h
      subst h1 h2 h3 h4 h5
      exact ⟨c :: t, a3, rfl, hta⟩
    | none =>
      rw [findEnv, hta] at h
      simp only [Option.map_eq_some'] at h
      obtain ⟨⟨p1, p2⟩, hq, hq2⟩ := h
      simp at hq2
      obtain ⟨h1, h2⟩ := hq2
      subst h2
      obtain ⟨m, cs, hm, hta2⟩ := ih p1 n b suf k (by rw [hq])
      refine ⟨m, cs, ?_, hta2⟩
      rw [← h1, List.cons_append, ← hm]

theorem findEnv_bs (l pre n b suf : List Char) (k : EnvKind)
    (h : findEnv l = some (pre, n, k, b, suf)) :
    bsCount (pre ++ format_matrix n k b ++ suf) + 2 ≤ bsCount l := by
  obtain ⟨m, cs, hm, hta⟩ := findEnv_sound l pre n b suf k h
  have h1 := tryEnvAt_bs m n k cs b suf hta
  have h2 := bs_format n k b
  rw [hm, bs_append, bs_append, bs_append]
  omega

theorem envLoopFuel_suff : ∀ fuel : Nat, ∀ l : List Char,
    bsCount l ≤ 2 * fuel → ∃ r, envLoopFuel fuel l = some r := by
  intro fuel
  induction fuel with
  | zero =>
    intro l h
    cases hfe : findEnv l with
    | none => exact ⟨l, by rw [envLoopFuel, hfe]⟩
    | some q =>
      obtain ⟨pre, n, k, b, suf⟩ := q
      have := findEnv_bs l pre n b suf k hfe
      omega
  | succ g ih =>
    intro l h
    cases hfe : findEnv l with
    | none => exact ⟨l, by rw [envLoopFuel, hfe]⟩
    | some q =>
      obtain ⟨pre, n, k, b, suf⟩ := q
      have hd := findEnv_bs l pre n b suf k hfe
      obtain ⟨r, hr⟩ := ih (pre ++ format_matrix n k b ++ suf) (by omega)
      exact ⟨r, by rw [envLoopFuel, hfe]; exact hr⟩

theorem envLoopFuel_stable : ∀ fuel : Nat, ∀ l r : List Char,
    envLoopFuel fuel l = some r → findEnv r = none := by
  intro fuel
  induction fuel with
  | zero =>
    intro l r h
    rw [envLoopFuel] at h
    cases hfe : findEnv l with
    | none =>
      rw [hfe] at h
      simp at h
      rw [← h]
      exact hfe
    | some q =>
      obtain ⟨pre, n, k, b, suf⟩ := q
      rw [hfe] at h
      simp at h
  | succ g ih =>
    intro l r h
    rw [envLoopFuel] at h
    cases hfe : findEnv l with
    | none =>
      rw [hfe] at h
      simp at h
      rw [← h]
      exact hfe
    | some q =>
      obtain ⟨pre, n, k, b, suf⟩ := q
      rw [hfe] at h
      exact ih _ _ h

/-- Claim C8: the structured-environment loop terminates on every input:
some finite fuel reaches a state in which no environment match remains
(each iteration consumes the two backslashes of its begin and end markers
and the rendering never adds one), so the converter always returns. -/
theorem claim_C8 (l : List Char) :
    ∃ fuel r, envLoopFuel fuel l = some r ∧ findEnv r = none := by
  obtain ⟨r, hr⟩ := envLoopFuel_suff (bsCount l + 1) l (by omega)
  exact ⟨bsCount l + 1, r, hr, envLoopFuel_stable _ _ _ hr⟩

/-- Claim C2: the converter is total: the fuel-explicit model of the
pipeline, in which an unfinished environment loop would yield no result,
always produces exactly the string that latex_to_plaintext returns; the
sanitizer is a composition of structurally recursive passes and is total
by construction. -/
theorem claim_C2 (s : String) :
    latexToPlaintextOpt s = some (latex_to_plaintext s) := by
  obtain ⟨r, hr⟩ :=
    envLoopFuel_suff (bsCount (preEnv s.data) + 1) (preEnv s.data) (by omega)
  unfold latexToPlaintextOpt
  rw [hr]
  rw [show latex_to_plaintext s = String.mk (convert s.data) from rfl]
  rw [show (∀ l, convert l = postEnv (envLoopRun (preEnv l))) from fun l => rfl]
  unfold envLoopRun
  rw [hr]
  rfl

/-! Claim C6 (amended): root rewriting on brace-free contents. -/

theorem prefix_mem {p l : List Char} (h : p.isPrefixOf l = true) {c : Char}
    (hc : c ∈ p) : c ∈ l :=
  ((List.isPrefixOf_iff_prefix.mp h).sublist).subset hc

theorem findCh_append (c : Char) : ∀ A B : List Char, c ∉ A →
    findCh c (A ++ c :: B) = some (A, B) := by
  intro A
  induction A with
  | nil =>
    intro B _
    simp [findCh]
  | cons a t ih =>
    intro B hc
    rw [List.cons_append, findCh]
    have ha : ¬(a = c) := fun h => hc (List.mem_cons.mpr (Or.inl h.symm))
    rw [if_neg ha, ih B (fun h => hc (List.mem_cons_of_mem _ h))]
    rfl

theorem sqrtIdxPassF_nil (f : Nat) : sqrtIdxPassF f [] = [] := by
  cases f <;> rfl

theorem sqrtPassF_nil (f : Nat) : sqrtPassF f [] = [] := by
  cases f <;> rfl

/-- The indexed-root pass is the identity on bracket-free input. -/
theorem sqrtIdxPassF_id : ∀ (fuel : Nat) (l : List Char), l.length ≤ fuel →
    '[' ∉ l → sqrtIdxPassF fuel l = l := by
  intro fuel
  induction fuel with
  | zero =>
    intro l hl _
    have h0 : l = [] := List.length_eq_zero.mp (Nat.le_zero.mp hl)
    subst h0
    rfl
  | succ f ih =>
    intro l hl hni
    match l with
    | [] => rfl
    | c :: t =>
      rw [sqrtIdxPassF]
      have hpf : "sqrt[".data.isPrefixOf t = false := by
        cases hp : "sqrt[".data.isPrefixOf t with
        | false => rfl
        | true =>
          exact absurd (List.mem_cons_of_mem c (prefix_mem hp (by decide))) hni
      rw [if_neg (by simp [hpf])]
      rw [ih t (by simp only [List.length_cons] at hl; omega)
        (fun hm => hni (List.mem_cons_of_mem _ hm))]

theorem sqrtIdxPass_id (l : List Char) (h : '[' ∉ l) : sqrtIdxPass l = l :=
  sqrtIdxPassF_id l.length l le_rfl h

theorem sqrtIdxPassF_step (fuel : Nat) (t n r3 x rest : List Char)
    (h1 : "sqrt[".data.isPrefixOf t = true)
    (h2 : findCh ']' (t.drop 5) = some (n, '{' :: r3))
    (h3 : findCh '}' r3 = some (x, rest)) :
    sqrtIdxPassF (fuel + 1) ('\\' :: t) =
      '(' :: (x ++ ")^(1/".data ++ n ++ ')' :: sqrtIdxPassF fuel rest) := by
  rw [sqrtIdxPassF]
  rw [if_pos (by simp [h1])]
  simp only [h2, h3]

theorem sqrtPassF_step (fuel : Nat) (t x rest : List Char)
    (h1 : "sqrt\x7b".data.isPrefixOf t = true)
    (h2 : findCh '}' (t.drop 5) = some (x, rest)) :
    sqrtPassF (fuel + 1) ('\\' :: t) =
      "sqrt(".data ++ x ++ ')' :: sqrtPassF fuel rest := by
  rw [sqrtPassF]
  rw [if_pos (by simp [h1])]
  simp only [h2]

/-- The indexed-root stage rewrite: for a bracket-free index n and a
brace-free radicand x, the indexed root becomes a reciprocal power. -/
theorem sqrtIdx_compute (n x : List Char) (hn : ']' ∉ n) (hx : '}' ∉ x) :
    sqrtIdxPass
        ('\\' :: 's' :: 'q' :: 'r' :: 't' :: '[' :: (n ++ ']' :: '{' :: (x ++ ['}']))) =
      '(' :: (x ++ ")^(1/".data ++ n ++ [')']) := by
  set T := 's' :: 'q' :: 'r' :: 't' :: '[' :: (n ++ ']' :: '{' :: (x ++ ['}'])) with hT
  have hlen : ('\\' :: T).length = (n.length + x.length + 8) + 1 := by
    rw [hT]
    simp
    omega
  have h1 : "sqrt[".data.isPrefixOf T = true := by
    rw [hT]
    simp [List.isPrefixOf]
  have h2 : findCh ']' (T.drop 5) = some (n, '{' :: (x ++ ['}'])) := by
    have hd : T.drop 5 = n ++ ']' :: '{' :: (x ++ ['}']) := by
      rw [hT]
      rfl
    rw [hd]
    exact findCh_append ']' n ('{' :: (x ++ ['}'])) hn
  have h3 : findCh '}' (x ++ ['}']) = some (x, []) := findCh_append '}' x [] hx
  have hstep := sqrtIdxPassF_step (n.length + x.length + 8) T n (x ++ ['}']) x [] h1 h2 h3
  have hwrap : sqrtIdxPass ('\\' :: T) = sqrtIdxPassF ('\\' :: T).length ('\\' :: T) := rfl
  rw [hwrap, hlen, hstep, sqrtIdxPassF_nil]

/-- The plain-root stage rewrite on a brace-free radicand x. -/
theorem sqrt_compute (x : List Char) (hx : '}' ∉ x) :
    sqrtPass ('\\' :: 's' :: 'q' :: 'r' :: 't' :: '{' :: (x ++ ['}'])) =
      "sqrt(".data ++ x ++ [')'] := by
  set T := 's' :: 'q' :: 'r' :: 't' :: '{' :: (x ++ ['}']) with hT
  have hlen : ('\\' :: T).length = (x.length + 6) + 1 := by
    rw [hT]
    simp
  have h1 : "sqrt\x7b".data.isPrefixOf T = true := by
    rw [hT]
    simp [List.isPrefixOf]
  have h2 : findCh '}' (T.drop 5) = some (x, []) := by
    have hd : T.drop 5 = x ++ ['}'] := by
      rw [hT]
      rfl
    rw [hd]
    exact findCh_append '}' x [] hx
  have hstep := sqrtPassF_step (x.length + 6) T x [] h1 h2
  have hwrap : sqrtPass ('\\' :: T) = sqrtPassF ('\\' :: T).length ('\\' :: T) := rfl
  rw [hwrap, hlen, hstep, sqrtPassF_nil]

set_option maxRecDepth 1000000 in
set_option maxHeartbeats 1000000 in
/-- Claim C6 (amended): the root stage rewrites hold for brace-free
contents: for a radicand x with no closing brace and no opening bracket,
the root stages send a plain root of x to sqrt(x); for a bracket-free
index n and a brace-free radicand x, the indexed-root stage sends the
indexed root to a reciprocal power; and the whole converter realizes both
shapes on concrete inputs. -/
theorem claim_C6 :
    (∀ x : List Char, '}' ∉ x → '[' ∉ x →
      sqrtPass (sqrtIdxPass ("\\sqrt\x7b".data ++ x ++ "\x7d".data)) =
        "sqrt(".data ++ x ++ ")".data) ∧
    (∀ n x : List Char, ']' ∉ n → '}' ∉ x →
      sqrtIdxPass ("\\sqrt[".data ++ n ++ "]\x7b".data ++ x ++ "\x7d".data) =
        "(".data ++ x ++ ")^(1/".data ++ n ++ ")".data) ∧
    latex_to_plaintext "\\sqrt[3]\x7bx+1\x7d" = "(x+1)^(1/3)" ∧
    latex_to_plaintext "\\sqrt\x7ba+b\x7d" = "sqrt(a+b)" := by
  refine ⟨?_, ?_, by decide, by decide⟩
  · intro x hx hxb
    have hin : "\\sqrt\x7b".data ++ x ++ "\x7d".data =
        '\\' :: 's' :: 'q' :: 'r' :: 't' :: '{' :: (x ++ ['}']) := by
      simp
    rw [hin]
    have hid : sqrtIdxPass ('\\' :: 's' :: 'q' :: 'r' :: 't' :: '{' :: (x ++ ['}'])) =
        '\\' :: 's' :: 'q' :: 'r' :: 't' :: '{' :: (x ++ ['}']) := by
      refine sqrtIdxPass_id _ ?_
      intro hm
      simp at hm
      exact hxb hm
    rw [hid, sqrt_compute x hx]
  · intro n x hn hx
    have hin : "\\sqrt[".data ++ n ++ "]\x7b".data ++ x ++ "\x7d".data =
        '\\' :: 's' :: 'q' :: 'r' :: 't' :: '[' :: (n ++ ']' :: '{' :: (x ++ ['}'])) := by
      simp
    rw [hin, sqrtIdx_compute n x hn hx]
    simp

set_option maxRecDepth 1000000 in
set_option maxHeartbeats 1000000 in
/-- Witness for claim C6 at a brace-free radicand and a bracket-free
index. -/
theorem claim_C6_witness :
    ('}' ∉ "a+b".data ∧ '[' ∉ "a+b".data ∧
      sqrtPass (sqrtIdxPass ("\\sqrt\x7b".data ++ "a+b".data ++ "\x7d".data)) =
        "sqrt(".data ++ "a+b".data ++ ")".data) ∧
    (']' ∉ "3".data ∧ '}' ∉ "x+1".data ∧
      sqrtIdxPass ("\\sqrt[".data ++ "3".data ++ "]\x7b".data ++ "x+1".data ++
          "\x7d".data) =
        "(".data ++ "x+1".data ++ ")^(1/".data ++ "3".data ++ ")".data) :=
  ⟨⟨by decide, by decide, claim_C6.1 "a+b".data (by decide) (by decide)⟩,
   ⟨by decide, by decide, claim_C6.2.1 "3".data "x+1".data (by decide) (by decide)⟩⟩

/-! Claim C5 (amended): the sanitizer on an already-delimited span. -/

theorem alnum_ne (a γ : Char) (h : isAlnumA a = true) (hγ : isAlnumA γ = false) :
    a ≠ γ := fun he => by
  rw [he, hγ] at h
  cases h

theorem pyWs_false_of_alnum (a : Char) (h : isAlnumA a = true) : pyWs a = false := by
  unfold pyWs
  rw [beq_eq_false_iff_ne.mpr (alnum_ne a ' ' h (by decide)),
    beq_eq_false_iff_ne.mpr (alnum_ne a '\t' h (by decide)),
    beq_eq_false_iff_ne.mpr (alnum_ne a '\n' h (by decide)),
    beq_eq_false_iff_ne.mpr (alnum_ne a '\r' h (by decide)),
    beq_eq_false_iff_ne.mpr (alnum_ne a '\x0b' h (by decide)),
    beq_eq_false_iff_ne.mpr (alnum_ne a '\x0c' h (by decide))]
  rfl

theorem stripL_id (l : List Char) (h : ∀ c ∈ l, pyWs c = false) : stripL l = l := by
  unfold stripL
  cases l with
  | nil => rfl
  | cons a t =>
    have ha : ¬(pyWs a = true) := by simp [h a (List.mem_cons_self a t)]
    rw [List.dropWhile_cons, if_neg ha]

theorem stripR_id (l : List Char) (h : ∀ c ∈ l, pyWs c = false) : stripR l = l := by
  unfold stripR
  cases hl : l.reverse with
  | nil =>
    have h0 : l = [] := List.reverse_eq_nil_iff.mp hl
    subst h0
    rfl
  | cons a t =>
    have ha : a ∈ l := by
      have hm : a ∈ l.reverse := by
        rw [hl]
        exact List.mem_cons_self a t
      simpa using hm
    have hna : ¬(pyWs a = true) := by simp [h a ha]
    rw [List.dropWhile_cons, if_neg hna, ← hl, List.reverse_reverse]

theorem stripWs_id (l : List Char) (h : ∀ c ∈ l, pyWs c = false) :
    stripWs l = l := by
  unfold stripWs
  rw [stripL_id l h, stripR_id l h]

theorem collapseWs_id (l : List Char) (h : ∀ c ∈ l, pyWs c = false) :
    collapseWs l = l := by
  unfold collapseWs
  induction l with
  | nil => rfl
  | cons a t ih =>
    rw [collapseGo]
    rw [if_neg (by simp [h a (List.mem_cons_self a t)])]
    rw [ih (fun c hc => h c (List.mem_cons_of_mem a hc))]

theorem normWs_id (l : List Char) (h : ∀ c ∈ l, pyWs c = false) : normWs l = l := by
  unfold normWs
  rw [collapseWs_id l h, stripWs_id l h]

/-- The sanitizer text-block pass is the identity on backslash-free input. -/
theorem sanTextPassF_id : ∀ (fuel : Nat) (l : List Char), l.length ≤ fuel →
    '\\' ∉ l → sanTextPassF fuel l = l := by
  intro fuel
  induction fuel with
  | zero =>
    intro l hl _
    have h0 : l = [] := List.length_eq_zero.mp (Nat.le_zero.mp hl)
    subst h0
    rfl
  | succ f ih =>
    intro l hl hni
    match l with
    | [] => rfl
    | c :: t =>
      rw [sanTextPassF]
      have hc : ¬(c = '\\') := fun h => hni (List.mem_cons.mpr (Or.inl h.symm))
      rw [if_neg hc]
      rw [ih t (by simp only [List.length_cons] at hl; omega)
        (fun hm => hni (List.mem_cons_of_mem _ hm))]

theorem sanTextPass_id (l : List Char) (h : '\\' ∉ l) : sanTextPass l = l :=
  sanTextPassF_id l.length l le_rfl h

/-- Adjacent occurrence of the two-character sequence a b. -/
def hasPair (a b : Char) : List Char → Bool
  | x :: y :: t => (x == a && y == b) || hasPair a b (y :: t)
  | _ => false

/-- str.replace is the identity when the first two characters of the
pattern never occur adjacently in the input. -/
theorem replaceAllF_id_pair (a b : Char) (p2 r : List Char) :
    ∀ (fuel : Nat) (l : List Char), l.length ≤ fuel → hasPair a b l = false →
      replaceAllF (a :: b :: p2) r fuel l = l := by
  intro fuel
  induction fuel with
  | zero =>
    intro l hl _
    have h0 : l = [] := List.length_eq_zero.mp (Nat.le_zero.mp hl)
    subst h0
    rfl
  | succ f ih =>
    intro l hl hnp
    match l with
    | [] => rfl
    | c :: t =>
      have hpre : (a :: b :: p2).isPrefixOf (c :: t) = false := by
        cases hp : (a :: b :: p2).isPrefixOf (c :: t) with
        | false => rfl
        | true =>
          exfalso
          have hpx := List.isPrefixOf_iff_prefix.mp hp
          rw [List.cons_prefix_cons] at hpx
          obtain ⟨hac, hpx2⟩ := hpx
          obtain ⟨s, hs⟩ := hpx2
          subst hac
          rw [← hs] at hnp
          simp [hasPair] at hnp
      have hnpt : hasPair a b t = false := by
        cases t with
        | nil => rfl
        | cons y t2 =>
          rw [hasPair] at hnp
          exact (Bool.or_eq_false_iff.mp hnp).2
      rw [replaceAllF]
      rw [if_neg (by simp [hpre])]
      rw [ih t (by simp only [List.length_cons] at hl; omega) hnpt]

theorem replaceAll_id_pair (a b : Char) (p2 r l : List Char)
    (h : hasPair a b l = false) : replaceAll (a :: b :: p2) r l = l :=
  replaceAllF_id_pair a b p2 r l.length l le_rfl h

theorem hasPair_mid (b : Char) (hb : ('$' == b) = false) :
    ∀ c : List Char, (∀ x ∈ c, (x == '\\') = false) →
      ∀ x0 : Char, (x0 == '\\') = false →
        hasPair '\\' b (x0 :: (c ++ ['\\', '$'])) = false := by
  intro c
  induction c with
  | nil =>
    intro _ x0 hx0
    simp [hasPair, hx0, hb]
  | cons c1 c2 ih =>
    intro hc x0 hx0
    rw [List.cons_append, hasPair]
    rw [ih (fun y hy => hc y (List.mem_cons_of_mem _ hy)) c1
      (hc c1 (List.mem_cons_self _ _))]
    simp [hx0]

/-- No two-character pattern starting with a backslash and not ending in a
dollar occurs in the escaped span. -/
theorem hasPair_span (b : Char) (hb : ('$' == b) = false) (c : List Char)
    (hc : ∀ x ∈ c, (x == '\\') = false) :
    hasPair '\\' b ('\\' :: '$' :: (c ++ ['\\', '$'])) = false := by
  rw [hasPair]
  rw [hasPair_mid b hb c hc '$' (by decide)]
  simp [hb]

theorem isPrefixOf_cons_cons (a b : Char) (p l : List Char) :
    (a :: p).isPrefixOf (b :: l) = ((a == b) && p.isPrefixOf l) := rfl

/-- The escaping pass on an all-alphanumeric run followed by the closing
dollar: the run passes through and the dollar gains a backslash. -/
theorem escapeLits_alnum : ∀ c : List Char, (∀ x ∈ c, isAlnumA x = true) →
    ∀ prev : Option Char, prev ≠ some '\\' →
      escapeLits prev (c ++ ['$']) = c ++ ['\\', '$'] := by
  intro c
  induction c with
  | nil =>
    intro _ prev hprev
    simp only [List.nil_append]
    rw [escapeLits]
    have hp : (prev == some '\\') = false := beq_eq_false_iff_ne.mpr hprev
    rw [hp]
    rw [if_pos (by decide)]
    rw [escapeLits]
  | cons a c2 ih =>
    intro hall prev hprev
    simp only [List.cons_append]
    rw [escapeLits]
    have ha := hall a (List.mem_cons_self a c2)
    have hcond : ((a == '%' || a == '&' || a == '#' || a == '$') &&
        !(prev == some '\\')) = false := by
      rw [beq_eq_false_iff_ne.mpr (alnum_ne a '%' ha (by decide)),
        beq_eq_false_iff_ne.mpr (alnum_ne a '&' ha (by decide)),
        beq_eq_false_iff_ne.mpr (alnum_ne a '#' ha (by decide)),
        beq_eq_false_iff_ne.mpr (alnum_ne a '$' ha (by decide))]
      rfl
    rw [if_neg (by simp [hcond])]
    rw [ih (fun y hy => hall y (List.mem_cons_of_mem _ hy)) (some a)
      (fun he => (alnum_ne a '\\' ha (by decide)) (Option.some.inj he))]

/-- The escaping pass on a whole dollar-delimited alphanumeric span: both
delimiters gain a backslash. -/
theorem escapeLits_dollar_span (c : List Char)
    (hall : ∀ x ∈ c, isAlnumA x = true) :
    escapeLits none ('$' :: (c ++ ['$'])) = '\\' :: '$' :: (c ++ ['\\', '$']) := by
  rw [escapeLits]
  rw [if_pos (by decide)]
  rw [escapeLits_alnum c hall (some '$') (by decide)]

set_option maxRecDepth 1000000 in
set_option maxHeartbeats 1000000 in
/-- Claim C5 (amended): on an input that is already a single
dollar-delimited span with nonempty alphanumeric content, the sanitizer
does not add a second dollar pair, but the reserved-character escaping
pass escapes the two existing delimiters, so the output is the content
wrapped in backslash-dollar on both sides rather than in bare dollars. -/
theorem claim_C5 : ∀ c : List Char, c ≠ [] → (∀ x ∈ c, isAlnumA x = true) →
    sanitize_for_mathtext (String.mk ('$' :: (c ++ ['$']))) =
      String.mk ('\\' :: '$' :: (c ++ ['\\', '$'])) := by
  intro c hne hall
  obtain ⟨c0, c2, rfl⟩ : ∃ c0 c2, c = c0 :: c2 := by
    cases c with
    | nil => exact absurd rfl hne
    | cons a b => exact ⟨a, b, rfl⟩
  show String.mk (sanitizeL ('$' :: ((c0 :: c2) ++ ['$']))) =
    String.mk ('\\' :: '$' :: ((c0 :: c2) ++ ['\\', '$']))
  refine congrArg String.mk ?_
  simp only [List.cons_append]
  have hmem : ∀ x, x ∈ ('$' :: c0 :: (c2 ++ ['$'])) → x = '$' ∨ x ∈ (c0 :: c2) := by
    intro x hx
    rcases List.mem_cons.mp hx with h | hx2
    · exact Or.inl h
    · rcases List.mem_cons.mp hx2 with h | hx3
      · exact Or.inr (List.mem_cons.mpr (Or.inl h))
      · rcases List.mem_append.mp hx3 with h | h
        · exact Or.inr (List.mem_cons_of_mem _ h)
        · exact Or.inl (by simpa using h)
  have hnw : ∀ x ∈ ('$' :: c0 :: (c2 ++ ['$'])), pyWs x = false := by
    intro x hx
    rcases hmem x hx with h | h
    · subst h
      decide
    · exact pyWs_false_of_alnum x (hall x h)
  have hnbs : '\\' ∉ ('$' :: c0 :: (c2 ++ ['$'])) := by
    intro hm
    rcases hmem '\\' hm with h | h
    · exact absurd h (by decide)
    · exact absurd (hall '\\' h) (by decide)
  have hcbs : ∀ x ∈ (c0 :: c2), (x == '\\') = false := fun x hx =>
    beq_eq_false_iff_ne.mpr (alnum_ne x '\\' (hall x hx) (by decide))
  have hc0 : ('$' == c0) = false :=
    beq_eq_false_iff_ne.mpr (Ne.symm (alnum_ne c0 '$' (hall c0 (List.mem_cons_self _ _)) (by decide)))
  have h0 : stripWs ('$' :: c0 :: (c2 ++ ['$'])) = '$' :: c0 :: (c2 ++ ['$']) :=
    stripWs_id _ hnw
  have hpre2 : List.isPrefixOf ['$', '$'] ('$' :: c0 :: (c2 ++ ['$'])) = false := by
    rw [isPrefixOf_cons_cons, isPrefixOf_cons_cons]
    rw [hc0]
    simp
  have hpre3 : List.isPrefixOf ['\\', '['] ('$' :: c0 :: (c2 ++ ['$'])) = false := by
    rw [isPrefixOf_cons_cons]
    rw [show ('\\' == '$') = false from by decide]
    rfl
  have hpre1 : List.isPrefixOf ['$'] ('$' :: c0 :: (c2 ++ ['$'])) = true := by
    rw [isPrefixOf_cons_cons]
    simp [List.isPrefixOf]
  have hsuf1 : List.isSuffixOf ['$'] ('$' :: c0 :: (c2 ++ ['$'])) = true := by
    simp [List.isSuffixOf, List.isPrefixOf]
  have hsan : sanTextPass ('$' :: c0 :: (c2 ++ ['$'])) = '$' :: c0 :: (c2 ++ ['$']) :=
    sanTextPass_id _ hnbs
  have hesc : escapeLits none ('$' :: c0 :: (c2 ++ ['$'])) =
      '\\' :: '$' :: c0 :: (c2 ++ ['\\', '$']) := by
    have h := escapeLits_dollar_span (c0 :: c2) hall
    simpa [List.cons_append] using h
  have hpl : hasPair '\\' 'l' ('\\' :: '$' :: c0 :: (c2 ++ ['\\', '$'])) = false := by
    have h := hasPair_span 'l' (by decide) (c0 :: c2) hcbs
    simpa [List.cons_append] using h
  have hpr : hasPair '\\' 'r' ('\\' :: '$' :: c0 :: (c2 ++ ['\\', '$'])) = false := by
    have h := hasPair_span 'r' (by decide) (c0 :: c2) hcbs
    simpa [List.cons_append] using h
  have hLft : replaceAll ['\\', 'l', 'e', 'f', 't'] []
      ('\\' :: '$' :: c0 :: (c2 ++ ['\\', '$'])) =
      '\\' :: '$' :: c0 :: (c2 ++ ['\\', '$']) :=
    replaceAll_id_pair '\\' 'l' ['e', 'f', 't'] [] _ hpl
  have hRgt : replaceAll ['\\', 'r', 'i', 'g', 'h', 't'] []
      ('\\' :: '$' :: c0 :: (c2 ++ ['\\', '$'])) =
      '\\' :: '$' :: c0 :: (c2 ++ ['\\', '$']) :=
    replaceAll_id_pair '\\' 'r' ['i', 'g', 'h', 't'] [] _ hpr
  have hnw4 : ∀ x ∈ ('\\' :: '$' :: c0 :: (c2 ++ ['\\', '$'])), pyWs x = false := by
    intro x hx
    rcases List.mem_cons.mp hx with h | hx
    · subst h
      decide
    rcases List.mem_cons.mp hx with h | hx
    · subst h
      decide
    rcases List.mem_cons.mp hx with h | hx
    · rw [h]
      exact pyWs_false_of_alnum c0 (hall c0 (List.mem_cons_self _ _))
    rcases List.mem_append.mp hx with h | h
    · exact pyWs_false_of_alnum x (hall x (List.mem_cons_of_mem _ h))
    · rcases List.mem_cons.mp h with h2 | h2
      · subst h2
        decide
      · have h3 : x = '$' := by simpa using h2
        subst h3
        decide
  have hnorm : normWs ('\\' :: '$' :: c0 :: (c2 ++ ['\\', '$'])) =
      '\\' :: '$' :: c0 :: (c2 ++ ['\\', '$']) := normWs_id _ hnw4
  simp only [sanitizeL]
  rw [h0]
  rw [hpre2, Bool.false_and]
  rw [if_neg (show ¬(false = true) from by decide)]
  rw [hpre3, Bool.false_and]
  rw [if_neg (show ¬(false = true) from by decide)]
  rw [hsan, hesc, hLft, hRgt, hnorm]
  rw [hpre1, hsuf1, Bool.and_self, Bool.not_true, Bool.false_and]
  rw [if_neg (show ¬(false = true) from by decide)]

set_option maxRecDepth 1000000 in
set_option maxHeartbeats 1000000 in
/-- Witness for claim C5 at the one-character content x. -/
theorem claim_C5_witness :
    ("x".data ≠ [] ∧ (∀ y ∈ "x".data, isAlnumA y = true)) ∧
      sanitize_for_mathtext (String.mk ('$' :: ("x".data ++ ['$']))) =
        String.mk ('\\' :: '$' :: ("x".data ++ ['\\', '$'])) :=
  ⟨⟨by decide, by decide⟩, claim_C5 "x".data (by decide) (by decide)⟩

/-! Claim C4 (amended): ampersand preservation through a text block. -/

/-- The plain alphabet for text-block contents: alphanumerics, spaces and
ampersands. -/
def plainCh (c : Char) : Bool := isAlnumA c || c == ' ' || c == '&'

theorem plainCh_ne (a γ : Char) (h : plainCh a = true) (hγ : plainCh γ = false) :
    a ≠ γ := fun he => by
  rw [he, hγ] at h
  cases h

theorem hasPair_not_mem (a b : Char) : ∀ l : List Char, a ∉ l →
    hasPair a b l = false := by
  intro l
  induction l with
  | nil => intro _; rfl
  | cons x t ih =>
    intro h
    cases t with
    | nil => rfl
    | cons y t2 =>
      rw [hasPair]
      rw [ih (fun hm => h (List.mem_cons_of_mem _ hm))]
      rw [beq_eq_false_iff_ne.mpr (fun he => h (List.mem_cons.mpr (Or.inl he.symm)))]
      rfl

theorem hasPair_head (a b x : Char) (rest : List Char) (hx : (x == b) = false)
    (ha : a ∉ x :: rest) : hasPair a b (a :: x :: rest) = false := by
  rw [hasPair]
  rw [hasPair_not_mem a b (x :: rest) ha, hx]
  simp

theorem replaceAllF_id_head (a : Char) (p2 r : List Char) :
    ∀ (fuel : Nat) (l : List Char), l.length ≤ fuel → a ∉ l →
      replaceAllF (a :: p2) r fuel l = l := by
  intro fuel
  induction fuel with
  | zero =>
    intro l hl _
    have h0 : l = [] := List.length_eq_zero.mp (Nat.le_zero.mp hl)
    subst h0
    rfl
  | succ f ih =>
    intro l hl hni
    match l with
    | [] => rfl
    | c :: t =>
      have hpre : (a :: p2).isPrefixOf (c :: t) = false := by
        cases hp : (a :: p2).isPrefixOf (c :: t) with
        | false => rfl
        | true =>
          exfalso
          have hpx := List.isPrefixOf_iff_prefix.mp hp
          rw [List.cons_prefix_cons] at hpx
          exact hni (List.mem_cons.mpr (Or.inl hpx.1))
      rw [replaceAllF]
      rw [if_neg (by simp [hpre])]
      rw [ih t (by simp only [List.length_cons] at hl; omega)
        (fun hm => hni (List.mem_cons_of_mem _ hm))]

theorem replaceAll_id_head (a : Char) (p2 r l : List Char) (h : a ∉ l) :
    replaceAll (a :: p2) r l = l :=
  replaceAllF_id_head a p2 r l.length l le_rfl h

theorem applyPairs_id_heads (γ1 γ2 : Char) :
    ∀ (ps : List (List Char × List Char)) (l : List Char),
      (∀ pr ∈ ps, pr.1.head? = some γ1 ∨ pr.1.head? = some γ2) →
      γ1 ∉ l → γ2 ∉ l → applyPairs ps l = l := by
  intro ps
  induction ps with
  | nil => intro l _ _ _; rfl
  | cons pr t ih =>
    intro l h h1 h2
    obtain ⟨p, r⟩ := pr
    have hh : p.head? = some γ1 ∨ p.head? = some γ2 :=
      h (p, r) (List.mem_cons_self _ _)
    cases p with
    | nil => simp at hh
    | cons a p2 =>
      rw [applyPairs]
      have hrep : replaceAll (a :: p2) r l = l := by
        rw [List.head?_cons] at hh
        rcases hh with hh | hh
        · rw [Option.some.injEq] at hh
          subst hh
          exact replaceAll_id_head a p2 r l h1
        · rw [Option.some.injEq] at hh
          subst hh
          exact replaceAll_id_head a p2 r l h2
      rw [hrep]
      exact ih l (fun q hq => h q (List.mem_cons_of_mem _ hq)) h1 h2

theorem dollar2F_id : ∀ (fuel : Nat) (l : List Char), l.length ≤ fuel →
    '$' ∉ l → dollar2F fuel l = l := by
  intro fuel
  induction fuel with
  | zero =>
    intro l hl _
    have h0 : l = [] := List.length_eq_zero.mp (Nat.le_zero.mp hl)
    subst h0
    rfl
  | succ f ih =>
    intro l hl hni
    match l with
    | [] => rfl
    | c :: t =>
      have hc : ¬(c = '$') := fun he => hni (List.mem_cons.mpr (Or.inl he.symm))
      rw [dollar2F]
      rw [if_neg (by simp [hc])]
      rw [ih t (by simp only [List.length_cons] at hl; omega)
        (fun hm => hni (List.mem_cons_of_mem _ hm))]

theorem dollar2_id (l : List Char) (h : '$' ∉ l) : dollar2 l = l :=
  dollar2F_id l.length l le_rfl h

theorem dollar1F_id : ∀ (fuel : Nat) (l : List Char), l.length ≤ fuel →
    '$' ∉ l → dollar1F fuel l = l := by
  intro fuel
  induction fuel with
  | zero =>
    intro l hl _
    have h0 : l = [] := List.length_eq_zero.mp (Nat.le_zero.mp hl)
    subst h0
    rfl
  | succ f ih =>
    intro l hl hni
    match l with
    | [] => rfl
    | c :: t =>
      have hc : ¬(c = '$') := fun he => hni (List.mem_cons.mpr (Or.inl he.symm))
      rw [dollar1F]
      rw [if_neg hc]
      rw [ih t (by simp only [List.length_cons] at hl; omega)
        (fun hm => hni (List.mem_cons_of_mem _ hm))]

theorem dollar1_id (l : List Char) (h : '$' ∉ l) : dollar1 l = l :=
  dollar1F_id l.length l le_rfl h

theorem textPassF_nil (f : Nat) : textPassF f [] = [] := by
  cases f <;> rfl

theorem tryTextCmd_hit (n : List Char) (ns : List (List Char))
    (l rr x1 x2 : List Char) (h1 : n.isPrefixOf l = true)
    (h2 : starBrace (l.drop n.length) = some rr)
    (h3 : findCh '}' rr = some (x1, x2)) :
    tryTextCmd (n :: ns) l = some (x1, x2) := by
  rw [tryTextCmd]
  rw [if_pos h1]
  simp only [h2, h3]

theorem textPassF_step (fuel : Nat) (t inner rest : List Char)
    (h : tryTextCmd textCmds t = some (inner, rest)) :
    textPassF (fuel + 1) ('\\' :: t) = unwrap_text inner ++ textPassF fuel rest := by
  rw [textPassF, if_pos rfl]
  simp only [h]

/-- The text-macro pass on a backslash-protected text block with a
brace-free group: the block is unwrapped. -/
theorem textPass_text (c : List Char) (hc : '}' ∉ c) :
    textPass ('\\' :: 't' :: 'e' :: 'x' :: 't' :: '{' :: (c ++ ['}'])) =
      unwrap_text c := by
  have h1 : "text".data.isPrefixOf ('t' :: 'e' :: 'x' :: 't' :: '{' :: (c ++ ['}'])) = true := by
    simp [List.isPrefixOf]
  have h2 : starBrace (('t' :: 'e' :: 'x' :: 't' :: '{' :: (c ++ ['}'])).drop
      "text".data.length) = some (c ++ ['}']) := by
    rw [show "text".data.length = 4 from by decide]
    rw [show ('t' :: 'e' :: 'x' :: 't' :: '{' :: (c ++ ['}'])).drop 4 =
      '{' :: (c ++ ['}']) from rfl]
    simp [starBrace]
  have h3 : findCh '}' (c ++ ['}']) = some (c, []) := findCh_append '}' c [] hc
  have htc : tryTextCmd textCmds ('t' :: 'e' :: 'x' :: 't' :: '{' :: (c ++ ['}'])) =
      some (c, []) := by
    unfold textCmds
    exact tryTextCmd_hit "text".data _ _ _ _ _ h1 h2 h3
  have hstep := textPassF_step (c.length + 6)
    ('t' :: 'e' :: 'x' :: 't' :: '{' :: (c ++ ['}'])) c [] htc
  have hwrap : textPass ('\\' :: 't' :: 'e' :: 'x' :: 't' :: '{' :: (c ++ ['}'])) =
      textPassF ('\\' :: 't' :: 'e' :: 'x' :: 't' :: '{' :: (c ++ ['}'])).length
        ('\\' :: 't' :: 'e' :: 'x' :: 't' :: '{' :: (c ++ ['}'])) := rfl
  have hlen : ('\\' :: 't' :: 'e' :: 'x' :: 't' :: '{' :: (c ++ ['}'])).length =
      (c.length + 6) + 1 := by
    simp
  rw [hwrap, hlen, hstep, textPassF_nil, List.append_nil]

theorem count_dropWhileWs (γ : Char) (hγ : pyWs γ = false) (l : List Char) :
    (l.dropWhile pyWs).count γ = l.count γ := by
  induction l with
  | nil => rfl
  | cons c t ih =>
    rw [List.dropWhile_cons]
    by_cases hc : pyWs c = true
    · have hne : γ ≠ c := fun he => by rw [← he, hγ] at hc; cases hc
      rw [if_pos hc, ih, List.count_cons_of_ne hne]
    · rw [if_neg hc]

theorem count_takeWhileWs (γ : Char) (hγ : pyWs γ = false) (l : List Char) :
    (l.takeWhile pyWs).count γ = 0 := by
  rw [List.count_eq_zero]
  intro hm
  have h2 := List.mem_takeWhile_imp hm
  rw [h2] at hγ
  cases hγ

theorem count_collapseGo (γ : Char) (hγ : pyWs γ = false) :
    ∀ (l : List Char) (b : Bool), (collapseGo b l).count γ = l.count γ := by
  intro l
  induction l with
  | nil => intro b; rfl
  | cons c t ih =>
    intro b
    rw [collapseGo]
    by_cases hc : pyWs c = true
    · have hne : γ ≠ c := fun he => by rw [← he, hγ] at hc; cases hc
      have hsp : γ ≠ ' ' := fun he => by rw [he] at hγ; exact absurd hγ (by decide)
      rw [if_pos hc]
      cases b with
      | true =>
        rw [if_pos rfl]
        rw [ih true, List.count_cons_of_ne hne]
      | false =>
        rw [if_neg (show ¬(false = true) from by decide)]
        rw [List.count_cons_of_ne hsp, ih true, List.count_cons_of_ne hne]
    · rw [if_neg hc]
      rw [List.count_cons, List.count_cons, ih false]

theorem count_stripR (γ : Char) (hγ : pyWs γ = false) (l : List Char) :
    (stripR l).count γ = l.count γ := by
  unfold stripR
  rw [List.count_reverse, count_dropWhileWs γ hγ, List.count_reverse]

theorem count_normWs (γ : Char) (hγ : pyWs γ = false) (l : List Char) :
    (normWs l).count γ = l.count γ := by
  unfold normWs stripWs
  rw [count_stripR γ hγ]
  unfold stripL
  rw [count_dropWhileWs γ hγ]
  unfold collapseWs
  rw [count_collapseGo γ hγ l false]

theorem not_mem_normWs (γ : Char) (hγ : pyWs γ = false) (l : List Char)
    (h : γ ∉ l) : γ ∉ normWs l := by
  rw [← List.count_eq_zero] at h ⊢
  rw [count_normWs γ hγ]
  exact h

theorem ampPassF_amp (f : Nat) (t : List Char) :
    ampPassF (f + 1) ('&' :: t) = ' ' :: '&' :: ' ' :: ampPassF f (t.dropWhile pyWs) := by
  rw [ampPassF, if_pos rfl]

theorem ampPassF_ws_amp (f : Nat) (c : Char) (t r2 : List Char) (hw : pyWs c = true)
    (hc : ¬(c = '&')) (hdw : t.dropWhile pyWs = '&' :: r2) :
    ampPassF (f + 1) (c :: t) = ' ' :: '&' :: ' ' :: ampPassF f (r2.dropWhile pyWs) := by
  rw [ampPassF, if_neg hc, if_pos hw, hdw]
  split
  · rename_i heq
    rw [List.cons.injEq] at heq
    rw [heq.2]
  · rename_i hne
    exact absurd rfl (hne r2)

theorem ampPassF_ws_other (f : Nat) (c d : Char) (t r2 : List Char)
    (hw : pyWs c = true) (hc : ¬(c = '&')) (hd : ¬(d = '&'))
    (hdw : t.dropWhile pyWs = d :: r2) :
    ampPassF (f + 1) (c :: t) =
      (c :: t.takeWhile pyWs) ++ ampPassF f (t.dropWhile pyWs) := by
  rw [ampPassF, if_neg hc, if_pos hw, hdw]
  split
  · rename_i heq
    rw [List.cons.injEq] at heq
    exact absurd heq.1 hd
  · rw [← hdw]

theorem ampPassF_ws_nil (f : Nat) (c : Char) (t : List Char) (hw : pyWs c = true)
    (hc : ¬(c = '&')) (hdw : t.dropWhile pyWs = []) :
    ampPassF (f + 1) (c :: t) =
      (c :: t.takeWhile pyWs) ++ ampPassF f (t.dropWhile pyWs) := by
  rw [ampPassF, if_neg hc, if_pos hw, hdw]

theorem ampPassF_other (f : Nat) (c : Char) (t : List Char) (hc : ¬(c = '&'))
    (hw : pyWs c = false) :
    ampPassF (f + 1) (c :: t) = c :: ampPassF f t := by
  rw [ampPassF, if_neg hc, if_neg (by simp [hw])]

/-- The ampersand-spacing pass preserves the count of every
non-whitespace character. -/
theorem count_ampPassF (γ : Char) (hγ : pyWs γ = false) :
    ∀ (fuel : Nat) (l : List Char), l.length ≤ fuel →
      (ampPassF fuel l).count γ = l.count γ := by
  intro fuel
  induction fuel with
  | zero =>
    intro l hl
    have h0 : l = [] := List.length_eq_zero.mp (Nat.le_zero.mp hl)
    subst h0
    rfl
  | succ f ih =>
    intro l hl
    match l with
    | [] => rfl
    | c :: t =>
      have hlt : t.length ≤ f := by simp only [List.length_cons] at hl; omega
      have hdwlen : (t.dropWhile pyWs).length ≤ f :=
        le_trans (List.dropWhile_sublist _).length_le hlt
      have hsp : γ ≠ ' ' := fun he => by rw [he] at hγ; exact absurd hγ (by decide)
      by_cases hc : c = '&'
      · subst hc
        rw [ampPassF_amp f t]
        have hA : (ampPassF f (t.dropWhile pyWs)).count γ = t.count γ := by
          rw [ih (t.dropWhile pyWs) hdwlen, count_dropWhileWs γ hγ t]
        rw [List.count_cons_of_ne hsp]
        rw [List.count_cons, List.count_cons]
        rw [hA]
        rw [beq_eq_false_iff_ne.mpr (Ne.symm hsp)]
        rw [List.count_cons]
        simp
      · by_cases hw : pyWs c = true
        · have hnec : γ ≠ c := fun he => by rw [← he, hγ] at hw; cases hw
          cases hdw : t.dropWhile pyWs with
          | nil =>
            rw [ampPassF_ws_nil f c t hw hc hdw]
            rw [List.count_append]
            rw [List.count_cons_of_ne hnec]
            rw [count_takeWhileWs γ hγ t]
            rw [ih (t.dropWhile pyWs) hdwlen, count_dropWhileWs γ hγ t]
            rw [List.count_cons_of_ne hnec]
            omega
          | cons d r2 =>
            by_cases hd : d = '&'
            · subst hd
              rw [ampPassF_ws_amp f c t r2 hw hc hdw]
              have hr2len : (r2.dropWhile pyWs).length ≤ f := by
                have h5 : (t.dropWhile pyWs).length ≤ t.length :=
                  (List.dropWhile_sublist _).length_le
                rw [hdw] at h5
                have h6 : (r2.dropWhile pyWs).length ≤ r2.length :=
                  (List.dropWhile_sublist _).length_le
                simp only [List.length_cons] at h5
                omega
              have hA : (ampPassF f (r2.dropWhile pyWs)).count γ = r2.count γ := by
                rw [ih (r2.dropWhile pyWs) hr2len, count_dropWhileWs γ hγ r2]
              rw [List.count_cons_of_ne hsp]
              rw [List.count_cons]
              rw [List.count_cons_of_ne hsp, hA]
              rw [List.count_cons_of_ne hnec]
              rw [← count_dropWhileWs γ hγ t, hdw]
              rw [List.count_cons]
            · rw [ampPassF_ws_other f c d t r2 hw hc hd hdw]
              rw [List.count_append]
              rw [List.count_cons_of_ne hnec]
              rw [count_takeWhileWs γ hγ t]
              rw [ih (t.dropWhile pyWs) hdwlen, count_dropWhileWs γ hγ t]
              rw [List.count_cons_of_ne hnec]
              omega
        · have hwf : pyWs c = false := by
            cases hpw : pyWs c with
            | false => rfl
            | true => exact absurd hpw hw
          rw [ampPassF_other f c t hc hwf]
          rw [List.count_cons, List.count_cons, ih t hlt]

theorem count_ampPass (γ : Char) (hγ : pyWs γ = false) (l : List Char) :
    (ampPass l).count γ = l.count γ :=
  count_ampPassF γ hγ l.length l le_rfl

theorem not_mem_ampPass (γ : Char) (hγ : pyWs γ = false) (l : List Char)
    (h : γ ∉ l) : γ ∉ ampPass l := by
  rw [← List.count_eq_zero] at h ⊢
  rw [count_ampPass γ hγ]
  exact h

theorem rbGo_id : ∀ (l : List Char) (prev : Option Char), '\\' ∉ l →
    rbGo prev false l = l := by
  intro l
  induction l with
  | nil => intro prev _; rfl
  | cons c t ih =>
    intro prev h
    rw [rbGo]
    rw [if_neg (show ¬(false = true) from by decide)]
    have hcb : (c == '\\') = false :=
      beq_eq_false_iff_ne.mpr (fun he => h (List.mem_cons.mpr (Or.inl he.symm)))
    rw [if_neg (by simp [hcb])]
    rw [ih (some c) (fun hm => h (List.mem_cons_of_mem _ hm))]

theorem rowBreakPass_id (l : List Char) (h : '\\' ∉ l) : rowBreakPass l = l :=
  rbGo_id l none h

theorem funcPassF_id : ∀ (fuel : Nat) (l : List Char), l.length ≤ fuel →
    '\\' ∉ l → funcPassF fuel l = l := by
  intro fuel
  induction fuel with
  | zero =>
    intro l hl _
    have h0 : l = [] := List.length_eq_zero.mp (Nat.le_zero.mp hl)
    subst h0
    rfl
  | succ f ih =>
    intro l hl hni
    match l with
    | [] => rfl
    | c :: t =>
      rw [funcPassF]
      rw [if_neg (fun he => hni (List.mem_cons.mpr (Or.inl he.symm)))]
      rw [ih t (by simp only [List.length_cons] at hl; omega)
        (fun hm => hni (List.mem_cons_of_mem _ hm))]

theorem funcPass_id (l : List Char) (h : '\\' ∉ l) : funcPass l = l :=
  funcPassF_id l.length l le_rfl h

theorem greekPassF_id : ∀ (fuel : Nat) (l : List Char), l.length ≤ fuel →
    '\\' ∉ l → greekPassF fuel l = l := by
  intro fuel
  induction fuel with
  | zero =>
    intro l hl _
    have h0 : l = [] := List.length_eq_zero.mp (Nat.le_zero.mp hl)
    subst h0
    rfl
  | succ f ih =>
    intro l hl hni
    match l with
    | [] => rfl
    | c :: t =>
      rw [greekPassF]
      rw [if_neg (fun he => hni (List.mem_cons.mpr (Or.inl he.symm)))]
      rw [ih t (by simp only [List.length_cons] at hl; omega)
        (fun hm => hni (List.mem_cons_of_mem _ hm))]

theorem greekPass_id (l : List Char) (h : '\\' ∉ l) : greekPass l = l :=
  greekPassF_id l.length l le_rfl h

theorem sqrtPassF_id : ∀ (fuel : Nat) (l : List Char), l.length ≤ fuel →
    '\\' ∉ l → sqrtPassF fuel l = l := by
  intro fuel
  induction fuel with
  | zero =>
    intro l hl _
    have h0 : l = [] := List.length_eq_zero.mp (Nat.le_zero.mp hl)
    subst h0
    rfl
  | succ f ih =>
    intro l hl hni
    match l with
    | [] => rfl
    | c :: t =>
      rw [sqrtPassF]
      have hcb : (c == '\\') = false :=
        beq_eq_false_iff_ne.mpr (fun he => hni (List.mem_cons.mpr (Or.inl he.symm)))
      rw [if_neg (by simp [hcb])]
      rw [ih t (by simp only [List.length_cons] at hl; omega)
        (fun hm => hni (List.mem_cons_of_mem _ hm))]

theorem sqrtPass_id (l : List Char) (h : '\\' ∉ l) : sqrtPass l = l :=
  sqrtPassF_id l.length l le_rfl h

theorem tryPick_none_head (names : List (List Char)) (c : Char) (t : List Char)
    (h : ∀ n ∈ names, n.head? = some '\\') (hc : ¬(c = '\\')) :
    tryPick names (c :: t) = none := by
  induction names with
  | nil => rfl
  | cons n ns ih =>
    have hh : n.head? = some '\\' := h n (List.mem_cons_self _ _)
    cases n with
    | nil => simp at hh
    | cons a p2 =>
      rw [List.head?_cons, Option.some.injEq] at hh
      subst hh
      rw [tryPick]
      have hpre : ('\\' :: p2).isPrefixOf (c :: t) = false := by
        cases hp : ('\\' :: p2).isPrefixOf (c :: t) with
        | false => rfl
        | true =>
          exfalso
          have hpx := List.isPrefixOf_iff_prefix.mp hp
          rw [List.cons_prefix_cons] at hpx
          exact hc hpx.1.symm
      rw [if_neg (by simp [hpre])]
      exact ih (fun m hm => h m (List.mem_cons_of_mem _ hm))

theorem fracF_id : ∀ (fuel : Nat) (l : List Char), l.length ≤ fuel →
    '\\' ∉ l → fracF fuel l = l := by
  intro fuel
  induction fuel with
  | zero =>
    intro l hl _
    have h0 : l = [] := List.length_eq_zero.mp (Nat.le_zero.mp hl)
    subst h0
    rw [fracF_nil]
  | succ f ih =>
    intro l hl hni
    match l with
    | [] => rw [fracF_nil]
    | c :: t =>
      have htp : tryPick fracCmds (c :: t) = none :=
        tryPick_none_head fracCmds c t (by decide)
          (fun he => hni (List.mem_cons.mpr (Or.inl he.symm)))
      rw [fracF]
      simp only [htp]
      rw [ih t (by simp only [List.length_cons] at hl; omega)
        (fun hm => hni (List.mem_cons_of_mem _ hm))]

theorem replace_frac_like_id (l : List Char) (h : '\\' ∉ l) :
    replace_frac_like l = l :=
  fracF_id l.length l le_rfl h

theorem binomF_nil (f : Nat) : binomF f [] = [] := by
  cases f <;> rfl

theorem binomF_id : ∀ (fuel : Nat) (l : List Char), l.length ≤ fuel →
    '\\' ∉ l → binomF fuel l = l := by
  intro fuel
  induction fuel with
  | zero =>
    intro l hl _
    have h0 : l = [] := List.length_eq_zero.mp (Nat.le_zero.mp hl)
    subst h0
    rw [binomF_nil]
  | succ f ih =>
    intro l hl hni
    match l with
    | [] => rw [binomF_nil]
    | c :: t =>
      have htp : tryPick binomCmds (c :: t) = none :=
        tryPick_none_head binomCmds c t (by decide)
          (fun he => hni (List.mem_cons.mpr (Or.inl he.symm)))
      rw [binomF]
      simp only [htp]
      rw [ih t (by simp only [List.length_cons] at hl; omega)
        (fun hm => hni (List.mem_cons_of_mem _ hm))]

theorem replace_binomials_id (l : List Char) (h : '\\' ∉ l) :
    replace_binomials l = l :=
  binomF_id l.length l le_rfl h

theorem supBracePassF_id : ∀ (fuel : Nat) (l : List Char), l.length ≤ fuel →
    '^' ∉ l → supBracePassF fuel l = l := by
  intro fuel
  induction fuel with
  | zero =>
    intro l hl _
    have h0 : l = [] := List.length_eq_zero.mp (Nat.le_zero.mp hl)
    subst h0
    rfl
  | succ f ih =>
    intro l hl hni
    match l with
    | [] => rfl
    | c :: t =>
      have hc : ¬(c = '^') := fun he => hni (List.mem_cons.mpr (Or.inl he.symm))
      rw [supBracePassF]
      rw [if_neg (by simp [hc])]
      rw [ih t (by simp only [List.length_cons] at hl; omega)
        (fun hm => hni (List.mem_cons_of_mem _ hm))]

theorem supBracePass_id (l : List Char) (h : '^' ∉ l) : supBracePass l = l :=
  supBracePassF_id l.length l le_rfl h

theorem subPassF_nil (f : Nat) : subPassF f [] = [] := by
  cases f <;> rfl

theorem supPassF_nil2 (f : Nat) : supPassF f [] = [] := by
  cases f <;> rfl

theorem subPassF_id : ∀ (fuel : Nat) (l : List Char), l.length ≤ fuel →
    '_' ∉ l → subPassF fuel l = l := by
  intro fuel
  induction fuel with
  | zero =>
    intro l hl _
    have h0 : l = [] := List.length_eq_zero.mp (Nat.le_zero.mp hl)
    subst h0
    rfl
  | succ f ih =>
    intro l hl hni
    match l with
    | [] => rfl
    | [c] =>
      rw [subPassF, subPassF_nil]
    | c :: c2 :: t2 =>
      have hc : ¬(c = '_') := fun he => hni (List.mem_cons.mpr (Or.inl he.symm))
      rw [subPassF]
      rw [if_neg hc]
      rw [ih (c2 :: t2) (by simp only [List.length_cons] at hl ⊢; omega)
        (fun hm => hni (List.mem_cons_of_mem _ hm))]

theorem subPass_id (l : List Char) (h : '_' ∉ l) : subPass l = l :=
  subPassF_id l.length l le_rfl h

theorem supPassF_id : ∀ (fuel : Nat) (l : List Char), l.length ≤ fuel →
    '^' ∉ l → supPassF fuel l = l := by
  intro fuel
  induction fuel with
  | zero =>
    intro l hl _
    have h0 : l = [] := List.length_eq_zero.mp (Nat.le_zero.mp hl)
    subst h0
    rfl
  | succ f ih =>
    intro l hl hni
    match l with
    | [] => rfl
    | [c] =>
      rw [supPassF, supPassF_nil2]
    | c :: c2 :: t2 =>
      have hc : ¬(c = '^') := fun he => hni (List.mem_cons.mpr (Or.inl he.symm))
      rw [supPassF]
      rw [if_neg hc]
      rw [ih (c2 :: t2) (by simp only [List.length_cons] at hl ⊢; omega)
        (fun hm => hni (List.mem_cons_of_mem _ hm))]

theorem supPass_id (l : List Char) (h : '^' ∉ l) : supPass l = l :=
  supPassF_id l.length l le_rfl h

theorem tryEnvAt_none_no_bs (l : List Char) (h : '\\' ∉ l) : tryEnvAt l = none := by
  have hpre : ¬(beginTok.isPrefixOf l = true) := by
    intro habs
    have hb : '\\' ∈ beginTok := by decide
    exact h (((List.isPrefixOf_iff_prefix.mp habs).sublist).subset hb)
  rw [tryEnvAt, if_neg hpre]

theorem findEnv_none_no_bs : ∀ l : List Char, '\\' ∉ l → findEnv l = none := by
  intro l
  induction l with
  | nil => intro _; decide
  | cons c t ih =>
    intro h
    rw [findEnv, tryEnvAt_none_no_bs (c :: t) h]
    rw [ih (fun hm => h (List.mem_cons_of_mem _ hm))]
    rfl

theorem envLoopRun_id (l : List Char) (h : findEnv l = none) : envLoopRun l = l := by
  unfold envLoopRun envLoopFuel
  rw [h]
  rfl

/-- The unwrap_text helper on a backslash-free, underscore-free group is
exactly the whitespace normalization. -/
theorem unwrap_text_plain (c : List Char) (hbs : '\\' ∉ c) (hus : '_' ∉ c) :
    unwrap_text c = normWs c := by
  unfold unwrap_text
  rw [show "\\ ".data = '\\' :: [' '] from by decide]
  rw [replaceAll_id_head '\\' [' '] " ".data c hbs]
  rw [show ampTok = '_' :: "_LATEXCLIP_ESC_AMP__".data from by decide]
  exact replaceAll_id_head '_' _ "&".data (normWs c)
    (not_mem_normWs '_' (by decide) c hus)

set_option maxRecDepth 1000000 in
set_option maxHeartbeats 1000000 in
/-- Claim C4 (amended): ampersands of a text block are preserved when the
block stands on its own (not inside a structured environment body): for
every content over the plain alphabet, the converter output of the text
block has exactly as many ampersands as the content; and the
specification example converts with its ampersand intact. -/
theorem claim_C4 :
    (∀ c : List Char, (∀ x ∈ c, plainCh x = true) →
      (latex_to_plaintext (String.mk ("\\text\x7b".data ++ c ++ ['}']))).data.count '&' =
        c.count '&') ∧
    latex_to_plaintext "\\text\x7bVacancy \\& Collection\x7d" = "Vacancy & Collection" := by
  constructor
  · intro c hall
    have hnc : ∀ γ : Char, plainCh γ = false → γ ∉ c := fun γ hγ hm => by
      rw [hall γ hm] at hγ
      cases hγ
    have hncn : ∀ γ : Char, plainCh γ = false → pyWs γ = false → γ ∉ normWs c :=
      fun γ h1 h2 => not_mem_normWs γ h2 c (hnc γ h1)
    have hA : ∀ γ : Char, plainCh γ = false → pyWs γ = false →
        γ ∉ ampPass (normWs c) :=
      fun γ h1 h2 => not_mem_ampPass γ h2 _ (hncn γ h1 h2)
    have hmemT : ∀ x : Char, x ∈ ('t' :: 'e' :: 'x' :: 't' :: '{' :: (c ++ ['}'])) →
        x ∈ (['t', 'e', 'x', '{', '}'] : List Char) ∨ x ∈ c := by
      intro x hx
      rcases List.mem_cons.mp hx with h | hx
      · exact Or.inl (by rw [h]; decide)
      rcases List.mem_cons.mp hx with h | hx
      · exact Or.inl (by rw [h]; decide)
      rcases List.mem_cons.mp hx with h | hx
      · exact Or.inl (by rw [h]; decide)
      rcases List.mem_cons.mp hx with h | hx
      · exact Or.inl (by rw [h]; decide)
      rcases List.mem_cons.mp hx with h | hx
      · exact Or.inl (by rw [h]; decide)
      rcases List.mem_append.mp hx with h | h
      · exact Or.inr h
      · exact Or.inl (by rw [show x = '}' from by simpa using h]; decide)
    have habsT : ∀ γ : Char, γ ∉ (['t', 'e', 'x', '{', '}'] : List Char) → γ ∉ c →
        γ ∉ ('t' :: 'e' :: 'x' :: 't' :: '{' :: (c ++ ['}'])) := by
      intro γ h1 h2 hm
      rcases hmemT γ hm with h | h
      · exact h1 h
      · exact h2 h
    have habsL : ∀ γ : Char, ¬(γ = '\\') →
        γ ∉ (['t', 'e', 'x', '{', '}'] : List Char) → γ ∉ c →
        γ ∉ ('\\' :: 't' :: 'e' :: 'x' :: 't' :: '{' :: (c ++ ['}'])) := by
      intro γ h0 h1 h2 hm
      rcases List.mem_cons.mp hm with h | h
      · exact h0 h
      · exact habsT γ h1 h2 h
    have hBsT : '\\' ∉ ('t' :: 'e' :: 'x' :: 't' :: '{' :: (c ++ ['}'])) :=
      habsT '\\' (by decide) (hnc '\\' (by decide))
    have hCRL : '\r' ∉ ('\\' :: 't' :: 'e' :: 'x' :: 't' :: '{' :: (c ++ ['}'])) :=
      habsL '\r' (by decide) (by decide) (hnc '\r' (by decide))
    have hDolL : '$' ∉ ('\\' :: 't' :: 'e' :: 'x' :: 't' :: '{' :: (c ++ ['}'])) :=
      habsL '$' (by decide) (by decide) (hnc '$' (by decide))
    have hp1 : hasPair '\\' '{'
        ('\\' :: 't' :: 'e' :: 'x' :: 't' :: '{' :: (c ++ ['}'])) = false :=
      hasPair_head '\\' '{' 't' _ (by decide) hBsT
    have hp2 : hasPair '\\' '}'
        ('\\' :: 't' :: 'e' :: 'x' :: 't' :: '{' :: (c ++ ['}'])) = false :=
      hasPair_head '\\' '}' 't' _ (by decide) hBsT
    have hp3 : hasPair '\\' '&'
        ('\\' :: 't' :: 'e' :: 'x' :: 't' :: '{' :: (c ++ ['}'])) = false :=
      hasPair_head '\\' '&' 't' _ (by decide) hBsT
    have h1 : replaceAll "\r\n".data "\n".data
        ('\\' :: 't' :: 'e' :: 'x' :: 't' :: '{' :: (c ++ ['}'])) =
        '\\' :: 't' :: 'e' :: 'x' :: 't' :: '{' :: (c ++ ['}']) := by
      rw [show "\r\n".data = '\r' :: ['\n'] from by decide]
      exact replaceAll_id_head '\r' ['\n'] _ _ hCRL
    have h2 : replaceAll "\r".data "\n".data
        ('\\' :: 't' :: 'e' :: 'x' :: 't' :: '{' :: (c ++ ['}'])) =
        '\\' :: 't' :: 'e' :: 'x' :: 't' :: '{' :: (c ++ ['}']) := by
      rw [show "\r".data = '\r' :: [] from by decide]
      exact replaceAll_id_head '\r' [] _ _ hCRL
    have h3 : replaceAll "\\\x7b".data laceTok
        ('\\' :: 't' :: 'e' :: 'x' :: 't' :: '{' :: (c ++ ['}'])) =
        '\\' :: 't' :: 'e' :: 'x' :: 't' :: '{' :: (c ++ ['}']) := by
      rw [show "\\\x7b".data = '\\' :: '{' :: [] from by decide]
      exact replaceAll_id_pair '\\' '{' [] laceTok _ hp1
    have h4 : replaceAll "\\\x7d".data raceTok
        ('\\' :: 't' :: 'e' :: 'x' :: 't' :: '{' :: (c ++ ['}'])) =
        '\\' :: 't' :: 'e' :: 'x' :: 't' :: '{' :: (c ++ ['}']) := by
      rw [show "\\\x7d".data = '\\' :: '}' :: [] from by decide]
      exact replaceAll_id_pair '\\' '}' [] raceTok _ hp2
    have h5 : replaceAll "\\&".data ampTok
        ('\\' :: 't' :: 'e' :: 'x' :: 't' :: '{' :: (c ++ ['}'])) =
        '\\' :: 't' :: 'e' :: 'x' :: 't' :: '{' :: (c ++ ['}']) := by
      rw [show "\\&".data = '\\' :: '&' :: [] from by decide]
      exact replaceAll_id_pair '\\' '&' [] ampTok _ hp3
    have h6 := dollar2_id _ hDolL
    have h7 := dollar1_id _ hDolL
    have h8 := textPass_text c (hnc '}' (by decide))
    have h9 := unwrap_text_plain c (hnc '\\' (by decide)) (hnc '_' (by decide))
    have h10 : applyPairs spacePairs (normWs c) = normWs c :=
      applyPairs_id_heads '\\' '~' spacePairs _ (by decide)
        (hncn '\\' (by decide) (by decide)) (hncn '~' (by decide) (by decide))
    have hpre : preEnv ('\\' :: 't' :: 'e' :: 'x' :: 't' :: '{' :: (c ++ ['}'])) =
        normWs c := by
      unfold preEnv
      rw [h1, h2, h3, h4, h5, h6, h7, h8, h9, h10]
    have henvrun : envLoopRun (normWs c) = normWs c :=
      envLoopRun_id _ (findEnv_none_no_bs _ (hncn '\\' (by decide) (by decide)))
    have hL1 : replaceAll "\\left".data [] (ampPass (normWs c)) =
        ampPass (normWs c) := by
      rw [show "\\left".data = '\\' :: ['l', 'e', 'f', 't'] from by decide]
      exact replaceAll_id_head '\\' _ _ _ (hA '\\' (by decide) (by decide))
    have hL2 : replaceAll "\\right".data [] (ampPass (normWs c)) =
        ampPass (normWs c) := by
      rw [show "\\right".data = '\\' :: ['r', 'i', 'g', 'h', 't'] from by decide]
      exact replaceAll_id_head '\\' _ _ _ (hA '\\' (by decide) (by decide))
    have hB1 : replaceAll "\x7b".data "(".data (ampPass (normWs c)) =
        ampPass (normWs c) := by
      rw [show "\x7b".data = '{' :: [] from by decide]
      exact replaceAll_id_head '{' _ _ _ (hA '{' (by decide) (by decide))
    have hB2 : replaceAll "\x7d".data ")".data (ampPass (normWs c)) =
        ampPass (normWs c) := by
      rw [show "\x7d".data = '}' :: [] from by decide]
      exact replaceAll_id_head '}' _ _ _ (hA '}' (by decide) (by decide))
    have hT1 : replaceAll laceTok "\x7b".data (ampPass (normWs c)) =
        ampPass (normWs c) := by
      rw [show laceTok = '_' :: "_LACE_BRACE__".data from by decide]
      exact replaceAll_id_head '_' _ _ _ (hA '_' (by decide) (by decide))
    have hT2 : replaceAll raceTok "\x7d".data (ampPass (normWs c)) =
        ampPass (normWs c) := by
      rw [show raceTok = '_' :: "_RACE_BRACE__".data from by decide]
      exact replaceAll_id_head '_' _ _ _ (hA '_' (by decide) (by decide))
    have hT3 : replaceAll ampTok "&".data (ampPass (normWs c)) =
        ampPass (normWs c) := by
      rw [show ampTok = '_' :: "_LATEXCLIP_ESC_AMP__".data from by decide]
      exact replaceAll_id_head '_' _ _ _ (hA '_' (by decide) (by decide))
    have hpost : (postEnv (normWs c)).count '&' = (normWs c).count '&' := by
      unfold postEnv
      rw [rowBreakPass_id (normWs c) (hncn '\\' (by decide) (by decide))]
      rw [funcPass_id _ (hA '\\' (by decide) (by decide))]
      rw [applyPairs_id_heads '\\' '\\' symbolPairs _ (by decide)
        (hA '\\' (by decide) (by decide)) (hA '\\' (by decide) (by decide))]
      rw [greekPass_id _ (hA '\\' (by decide) (by decide))]
      rw [sqrtIdxPass_id _ (hA '[' (by decide) (by decide))]
      rw [sqrtPass_id _ (hA '\\' (by decide) (by decide))]
      rw [replace_frac_like_id _ (hA '\\' (by decide) (by decide))]
      rw [replace_binomials_id _ (hA '\\' (by decide) (by decide))]
      rw [supBracePass_id _ (hA '^' (by decide) (by decide))]
      rw [subPass_id _ (hA '_' (by decide) (by decide))]
      rw [supPass_id _ (hA '^' (by decide) (by decide))]
      rw [hL1, hL2, hB1, hB2, hT1, hT2, hT3]
      rw [count_normWs '&' (by decide)]
      exact count_ampPass '&' (by decide) (normWs c)
    rw [show (∀ L : List Char, latex_to_plaintext (String.mk L) = String.mk (convert L))
      from fun L => rfl]
    rw [mk_data]
    rw [show (∀ l, convert l = postEnv (envLoopRun (preEnv l))) from fun l => rfl]
    rw [show "\\text\x7b".data ++ c ++ ['}'] =
      '\\' :: 't' :: 'e' :: 'x' :: 't' :: '{' :: (c ++ ['}']) from by simp]
    rw [hpre, henvrun, hpost]
    exact count_normWs '&' (by decide) c
  · decide

set_option maxRecDepth 1000000 in
set_option maxHeartbeats 1000000 in
/-- Witness for claim C4 at a plain content with one ampersand. -/
theorem claim_C4_witness :
    (∀ x ∈ "a & b".data, plainCh x = true) ∧
      (latex_to_plaintext (String.mk ("\\text\x7b".data ++ "a & b".data ++ ['}']))).data.count '&' =
        "a & b".data.count '&' :=
  ⟨by decide, claim_C4.1 "a & b".data (by decide)⟩

/-! Claim C7 (amended): the output never contains a placeholder token. -/

/-- Occurrence of p as a contiguous substring, as a scan. -/
def hasSub (p : List Char) : List Char → Bool
  | [] => p.isEmpty
  | c :: t => p.isPrefixOf (c :: t) || hasSub p t

theorem hasSub_nil (T : List Char) (hT : T ≠ []) : hasSub T [] = false := by
  cases T with
  | nil => exact absurd rfl hT
  | cons a b => rfl

theorem isPrefixOf_cons_elim (p : List Char) (x : Char) (X : List Char)
    (h : p.isPrefixOf (x :: X) = true) :
    p = [] ∨ ∃ p2, p = x :: p2 ∧ p2.isPrefixOf X = true := by
  cases p with
  | nil => exact Or.inl rfl
  | cons a p2 =>
    rw [isPrefixOf_cons_cons] at h
    rw [Bool.and_eq_true, beq_iff_eq] at h
    exact Or.inr ⟨p2, by rw [h.1], h.2⟩

theorem isPrefixOf_nil_true (X : List Char) : List.isPrefixOf [] X = true := by
  cases X <;> rfl

theorem hasSub_append_skip (T : List Char) (hT : T ≠ []) :
    ∀ r : List Char, (∀ x ∈ r, x ∉ T) → ∀ X : List Char,
      hasSub T (r ++ X) = hasSub T X := by
  intro r
  induction r with
  | nil => intro _ X; rfl
  | cons a r2 ih =>
    intro hr X
    rw [List.cons_append, hasSub]
    have hpre : T.isPrefixOf (a :: (r2 ++ X)) = false := by
      cases hp : T.isPrefixOf (a :: (r2 ++ X)) with
      | false => rfl
      | true =>
        exfalso
        rcases isPrefixOf_cons_elim T a _ hp with h | ⟨p2, hTeq, _⟩
        · exact hT h
        · exact hr a (List.mem_cons_self _ _) (by rw [hTeq]; exact List.mem_cons_self _ _)
    rw [hpre, ih (fun x hx => hr x (List.mem_cons_of_mem _ hx)) X]
    simp

theorem hasSub_drop_true (T : List Char) : ∀ (l : List Char) (k : Nat),
    hasSub T (l.drop k) = true → hasSub T l = true := by
  intro l
  induction l with
  | nil =>
    intro k h
    rw [List.drop_nil] at h
    exact h
  | cons c t ih =>
    intro k h
    cases k with
    | zero => exact h
    | succ k2 =>
      rw [List.drop_succ_cons] at h
      rw [hasSub, ih k2 h]
      simp

theorem isPrefixOf_append_ext (p : List Char) : ∀ A C : List Char,
    p.isPrefixOf A = true → p.isPrefixOf (A ++ C) = true := by
  induction p with
  | nil => intro A C _; exact isPrefixOf_nil_true _
  | cons a p2 ih =>
    intro A C h
    cases A with
    | nil => simp [List.isPrefixOf] at h
    | cons b A2 =>
      rw [isPrefixOf_cons_cons] at h
      rw [Bool.and_eq_true] at h
      rw [List.cons_append, isPrefixOf_cons_cons, h.1, ih A2 C h.2]
      rfl

theorem hasSub_append_l (T : List Char) : ∀ A C : List Char,
    hasSub T A = true → hasSub T (A ++ C) = true := by
  intro A
  induction A with
  | nil =>
    intro C h
    cases T with
    | nil =>
      cases C with
      | nil => rfl
      | cons c t => rw [List.nil_append, hasSub, isPrefixOf_nil_true]; rfl
    | cons a b => simp [hasSub, List.isEmpty] at h
  | cons c A2 ih =>
    intro C h
    rw [hasSub] at h
    rw [List.cons_append, hasSub]
    cases hp : T.isPrefixOf (c :: A2) with
    | true =>
      have h6 := isPrefixOf_append_ext T (c :: A2) C hp
      rw [List.cons_append] at h6
      rw [h6]
      rfl
    | false =>
      rw [hp] at h
      simp only [Bool.false_or] at h
      rw [ih C h]
      simp

theorem hasSub_dropWhile_true (T : List Char) (q : Char → Bool) :
    ∀ l : List Char, hasSub T (l.dropWhile q) = true → hasSub T l = true := by
  intro l
  induction l with
  | nil => intro h; exact h
  | cons c t ih =>
    intro h
    rw [List.dropWhile_cons] at h
    by_cases hq : q c = true
    · rw [if_pos hq] at h
      rw [hasSub, ih h]
      simp
    · rw [if_neg hq] at h
      exact h

/-- The replacement of the token T itself leaves no occurrence of T, as
long as no character of the replacement occurs in T: an occurrence in the
output would either lie inside a kept piece, which the scan has already
checked, or touch an inserted replacement character.  The second component
tracks prefixes across the junctions. -/
theorem replaceAllF_rm (T r : List Char) (hT : T ≠ []) (hrne : r ≠ [])
    (hr : ∀ x ∈ r, x ∉ T) :
    ∀ (fuel : Nat) (l : List Char), l.length ≤ fuel →
      hasSub T (replaceAllF T r fuel l) = false ∧
      (∀ T1 T2 : List Char, T = T1 ++ T2 → T1 ≠ [] →
        T2.isPrefixOf (replaceAllF T r fuel l) = true →
        T2.isPrefixOf l = true ∨ T2 = []) := by
  have hTe : T.isEmpty = false := by
    cases T with
    | nil => exact absurd rfl hT
    | cons a b => rfl
  intro fuel
  induction fuel with
  | zero =>
    intro l hl
    have h0 : l = [] := List.length_eq_zero.mp (Nat.le_zero.mp hl)
    subst h0
    refine ⟨hasSub_nil T hT, ?_⟩
    intro T1 T2 hsplit h1 hp
    cases T2 with
    | nil => exact Or.inr rfl
    | cons a b => simp [List.isPrefixOf] at hp
  | succ f ih =>
    intro l hl
    match l with
    | [] =>
      refine ⟨hasSub_nil T hT, ?_⟩
      intro T1 T2 hsplit h1 hp
      cases T2 with
      | nil => exact Or.inr rfl
      | cons a b => simp [List.isPrefixOf] at hp
    | c :: t =>
      cases hm : T.isPrefixOf (c :: t) with
      | true =>
        have hstep : replaceAllF T r (f + 1) (c :: t) =
            r ++ replaceAllF T r f ((c :: t).drop T.length) := by
          rw [replaceAllF]
          rw [if_pos (by rw [hm, hTe]; rfl)]
        have hdlen : ((c :: t).drop T.length).length ≤ f := by
          have hTpos : 0 < T.length := List.length_pos.mpr hT
          rw [List.length_drop]
          simp only [List.length_cons] at hl ⊢
          omega
        obtain ⟨ihA, ihB⟩ := ih ((c :: t).drop T.length) hdlen
        constructor
        · rw [hstep, hasSub_append_skip T hT r hr]
          exact ihA
        · intro T1 T2 hsplit h1 hp
          rw [hstep] at hp
          cases T2 with
          | nil => exact Or.inr rfl
          | cons a T3 =>
            exfalso
            cases r with
            | nil => exact hrne rfl
            | cons b r2 =>
              rw [List.cons_append] at hp
              rcases isPrefixOf_cons_elim _ b _ hp with h | ⟨p2, hTeq, _⟩
              · cases h
              · rw [List.cons.injEq] at hTeq
                refine hr b (List.mem_cons_self _ _) ?_
                rw [hsplit, ← hTeq.1]
                exact List.mem_append.mpr (Or.inr (List.mem_cons_self _ _))
      | false =>
        have hstep : replaceAllF T r (f + 1) (c :: t) =
            c :: replaceAllF T r f t := by
          rw [replaceAllF]
          rw [if_neg (by rw [hm]; simp)]
        obtain ⟨ihA, ihB⟩ := ih t (by simp only [List.length_cons] at hl; omega)
        constructor
        · rw [hstep, hasSub]
          rw [ihA]
          cases hpre : T.isPrefixOf (c :: replaceAllF T r f t) with
          | false => rfl
          | true =>
            exfalso
            rcases isPrefixOf_cons_elim T c _ hpre with h | ⟨T3, hTeq, hp3⟩
            · exact hT h
            · by_cases h3 : T3 = []
              · subst h3
                rw [hTeq, isPrefixOf_cons_cons, isPrefixOf_nil_true] at hm
                simp at hm
              · rcases ihB [c] T3 hTeq (by simp) hp3 with h | h
                · rw [hTeq, isPrefixOf_cons_cons, h] at hm
                  simp at hm
                · exact h3 h
        · intro T1 T2 hsplit h1 hp
          rw [hstep] at hp
          rcases isPrefixOf_cons_elim T2 c _ hp with h2 | ⟨T3, hT2eq, hp3⟩
          · exact Or.inr h2
          · by_cases h3 : T3 = []
            · subst h3
              left
              rw [hT2eq, isPrefixOf_cons_cons, isPrefixOf_nil_true]
              simp
            · rcases ihB (T1 ++ [c]) T3
                (by rw [hsplit, hT2eq]; simp) (by simp) hp3 with h | h
              · left
                rw [hT2eq, isPrefixOf_cons_cons, h]
                simp
              · exact absurd h h3

/-- str.replace with any pattern keeps a token T absent, as long as no
character of the replacement occurs in T. -/
theorem replaceAllF_keep (T p r : List Char) (hT : T ≠ []) (hrne : r ≠ [])
    (hr : ∀ x ∈ r, x ∉ T) :
    ∀ (fuel : Nat) (l : List Char), l.length ≤ fuel → hasSub T l = false →
      hasSub T (replaceAllF p r fuel l) = false ∧
      (∀ T1 T2 : List Char, T = T1 ++ T2 → T1 ≠ [] →
        T2.isPrefixOf (replaceAllF p r fuel l) = true →
        T2.isPrefixOf l = true ∨ T2 = []) := by
  intro fuel
  induction fuel with
  | zero =>
    intro l hl _
    have h0 : l = [] := List.length_eq_zero.mp (Nat.le_zero.mp hl)
    subst h0
    refine ⟨hasSub_nil T hT, ?_⟩
    intro T1 T2 hsplit h1 hp
    cases T2 with
    | nil => exact Or.inr rfl
    | cons a b => simp [List.isPrefixOf] at hp
  | succ f ih =>
    intro l hl hsub
    match l with
    | [] =>
      refine ⟨hasSub_nil T hT, ?_⟩
      intro T1 T2 hsplit h1 hp
      cases T2 with
      | nil => exact Or.inr rfl
      | cons a b => simp [List.isPrefixOf] at hp
    | c :: t =>
      rw [hasSub, Bool.or_eq_false_iff] at hsub
      obtain ⟨hsub1, hsub2⟩ := hsub
      cases hm : (!p.isEmpty && p.isPrefixOf (c :: t)) with
      | true =>
        have hstep : replaceAllF p r (f + 1) (c :: t) =
            r ++ replaceAllF p r f ((c :: t).drop p.length) := by
          rw [replaceAllF]
          rw [if_pos hm]
        have hdlen : ((c :: t).drop p.length).length ≤ f := by
          have hppos : 0 < p.length := by
            cases p with
            | nil => simp at hm
            | cons a b => simp
          rw [List.length_drop]
          simp only [List.length_cons] at hl ⊢
          omega
        have hsubd : hasSub T ((c :: t).drop p.length) = false := by
          cases hx : hasSub T ((c :: t).drop p.length) with
          | false => rfl
          | true =>
            have h5 := hasSub_drop_true T (c :: t) p.length hx
            rw [hasSub, hsub1, hsub2] at h5
            cases h5
        obtain ⟨ihA, ihB⟩ := ih ((c :: t).drop p.length) hdlen hsubd
        constructor
        · rw [hstep, hasSub_append_skip T hT r hr]
          exact ihA
        · intro T1 T2 hsplit h1 hp
          rw [hstep] at hp
          cases T2 with
          | nil => exact Or.inr rfl
          | cons a T3 =>
            exfalso
            cases r with
            | nil => exact hrne rfl
            | cons b r2 =>
              rw [List.cons_append] at hp
              rcases isPrefixOf_cons_elim _ b _ hp with h | ⟨p2, hTeq, _⟩
              · cases h
              · rw [List.cons.injEq] at hTeq
                refine hr b (List.mem_cons_self _ _) ?_
                rw [hsplit, ← hTeq.1]
                exact List.mem_append.mpr (Or.inr (List.mem_cons_self _ _))
      | false =>
        have hstep : replaceAllF p r (f + 1) (c :: t) =
            c :: replaceAllF p r f t := by
          rw [replaceAllF]
          rw [if_neg (by rw [hm]; simp)]
        obtain ⟨ihA, ihB⟩ := ih t (by simp only [List.length_cons] at hl; omega) hsub2
        constructor
        · rw [hstep, hasSub]
          rw [ihA]
          cases hpre : T.isPrefixOf (c :: replaceAllF p r f t) with
          | false => rfl
          | true =>
            exfalso
            rcases isPrefixOf_cons_elim T c _ hpre with h | ⟨T3, hTeq, hp3⟩
            · exact hT h
            · by_cases h3 : T3 = []
              · subst h3
                rw [hTeq, isPrefixOf_cons_cons, isPrefixOf_nil_true] at hsub1
                simp at hsub1
              · rcases ihB [c] T3 hTeq (by simp) hp3 with h | h
                · rw [hTeq, isPrefixOf_cons_cons, h] at hsub1
                  simp at hsub1
                · exact h3 h
        · intro T1 T2 hsplit h1 hp
          rw [hstep] at hp
          rcases isPrefixOf_cons_elim T2 c _ hp with h2 | ⟨T3, hT2eq, hp3⟩
          · exact Or.inr h2
          · by_cases h3 : T3 = []
            · subst h3
              left
              rw [hT2eq, isPrefixOf_cons_cons, isPrefixOf_nil_true]
              simp
            · rcases ihB (T1 ++ [c]) T3
                (by rw [hsplit, hT2eq]; simp) (by simp) hp3 with h | h
              · left
                rw [hT2eq, isPrefixOf_cons_cons, h]
                simp
              · exact absurd h h3

theorem replaceAll_rm (T r : List Char) (hT : T ≠ []) (hrne : r ≠ [])
    (hr : ∀ x ∈ r, x ∉ T) (l : List Char) :
    hasSub T (replaceAll T r l) = false :=
  (replaceAllF_rm T r hT hrne hr l.length l le_rfl).1

theorem replaceAll_keep (T p r : List Char) (hT : T ≠ []) (hrne : r ≠ [])
    (hr : ∀ x ∈ r, x ∉ T) (l : List Char) (h : hasSub T l = false) :
    hasSub T (replaceAll p r l) = false :=
  (replaceAllF_keep T p r hT hrne hr l.length l le_rfl h).1

/-- Whitespace collapsing keeps a whitespace-free token absent: no two
characters become newly adjacent, since a run is shortened to one space,
never removed. -/
theorem collapseGo_keep (T : List Char) (hT : T ≠ [])
    (hws : ∀ x ∈ T, pyWs x = false) :
    ∀ (l : List Char) (b : Bool), hasSub T l = false →
      hasSub T (collapseGo b l) = false ∧
      (b = false → ∀ T1 T2 : List Char, T = T1 ++ T2 → T1 ≠ [] →
        T2.isPrefixOf (collapseGo b l) = true → T2.isPrefixOf l = true ∨ T2 = []) := by
  intro l
  induction l with
  | nil =>
    intro b _
    refine ⟨by cases b <;> exact hasSub_nil T hT, ?_⟩
    intro _ T1 T2 hsplit h1 hp
    cases T2 with
    | nil => exact Or.inr rfl
    | cons a b2 =>
      cases b <;> simp [collapseGo, List.isPrefixOf] at hp
  | cons c t ih =>
    intro b hsub
    rw [hasSub, Bool.or_eq_false_iff] at hsub
    obtain ⟨hsub1, hsub2⟩ := hsub
    by_cases hc : pyWs c = true
    · cases b with
      | true =>
        have hstep : collapseGo true (c :: t) = collapseGo true t := by
          rw [collapseGo, if_pos hc, if_pos rfl]
        obtain ⟨ihA, _⟩ := ih true hsub2
        refine ⟨by rw [hstep]; exact ihA, ?_⟩
        intro hb
        cases hb
      | false =>
        have hstep : collapseGo false (c :: t) = ' ' :: collapseGo true t := by
          rw [collapseGo, if_pos hc, if_neg (show ¬(false = true) from by decide)]
        obtain ⟨ihA, _⟩ := ih true hsub2
        constructor
        · rw [hstep, hasSub, ihA]
          cases hpre : T.isPrefixOf (' ' :: collapseGo true t) with
          | false => rfl
          | true =>
            exfalso
            rcases isPrefixOf_cons_elim T ' ' _ hpre with h | ⟨T3, hTeq, _⟩
            · exact hT h
            · have h5 := hws ' ' (by rw [hTeq]; exact List.mem_cons_self _ _)
              exact absurd h5 (by decide)
        · intro _ T1 T2 hsplit h1 hp
          rw [hstep] at hp
          rcases isPrefixOf_cons_elim T2 ' ' _ hp with h2 | ⟨T3, hT2eq, _⟩
          · exact Or.inr h2
          · exfalso
            have h5 : ' ' ∈ T := by
              rw [hsplit, hT2eq]
              exact List.mem_append.mpr (Or.inr (List.mem_cons_self _ _))
            exact absurd (hws ' ' h5) (by decide)
    · have hcf : pyWs c = false := by
        cases hpw : pyWs c with
        | false => rfl
        | true => exact absurd hpw hc
      have hstep : collapseGo b (c :: t) = c :: collapseGo false t := by
        rw [collapseGo, if_neg hc]
      obtain ⟨ihA, ihB⟩ := ih false hsub2
      constructor
      · rw [hstep, hasSub, ihA]
        cases hpre : T.isPrefixOf (c :: collapseGo false t) with
        | false => rfl
        | true =>
          exfalso
          rcases isPrefixOf_cons_elim T c _ hpre with h | ⟨T3, hTeq, hp3⟩
          · exact hT h
          · by_cases h3 : T3 = []
            · subst h3
              rw [hTeq, isPrefixOf_cons_cons, isPrefixOf_nil_true] at hsub1
              simp at hsub1
            · rcases ihB rfl [c] T3 hTeq (by simp) hp3 with h | h
              · rw [hTeq, isPrefixOf_cons_cons, h] at hsub1
                simp at hsub1
              · exact h3 h
      · intro _ T1 T2 hsplit h1 hp
        rw [hstep] at hp
        rcases isPrefixOf_cons_elim T2 c _ hp with h2 | ⟨T3, hT2eq, hp3⟩
        · exact Or.inr h2
        · by_cases h3 : T3 = []
          · subst h3
            left
            rw [hT2eq, isPrefixOf_cons_cons, isPrefixOf_nil_true]
            simp
          · rcases ihB rfl (T1 ++ [c]) T3
              (by rw [hsplit, hT2eq]; simp) (by simp) hp3 with h | h
            · left
              rw [hT2eq, isPrefixOf_cons_cons, h]
              simp
            · exact absurd h h3

/-- Whitespace normalization keeps a whitespace-free token absent. -/
theorem normWs_keep (T : List Char) (hT : T ≠ [])
    (hws : ∀ x ∈ T, pyWs x = false) (l : List Char) (h : hasSub T l = false) :
    hasSub T (normWs l) = false := by
  have h1 : hasSub T (collapseGo false l) = false :=
    (collapseGo_keep T hT hws l false h).1
  have h2 : hasSub T (stripL (collapseGo false l)) = false := by
    cases hx : hasSub T (stripL (collapseGo false l)) with
    | false => rfl
    | true =>
      have h5 := hasSub_dropWhile_true T pyWs (collapseGo false l) hx
      rw [h1] at h5
      cases h5
  have h3 : hasSub T (stripR (stripL (collapseGo false l))) = false := by
    cases hx : hasSub T (stripR (stripL (collapseGo false l))) with
    | false => rfl
    | true =>
      obtain ⟨C, hC⟩ := stripR_isPrefix_self (stripL (collapseGo false l))
      have h5 := hasSub_append_l T _ C hx
      rw [hC, h2] at h5
      cases h5
  exact h3

/-- The restoration suffix of the pipeline leaves no placeholder token in
the result, whatever the earlier stages produced. -/
theorem restore_no_token (X : List Char) :
    hasSub laceTok
      (normWs (replaceAll ampTok "&".data (replaceAll raceTok "\x7d".data
        (replaceAll laceTok "\x7b".data X)))) = false ∧
    hasSub raceTok
      (normWs (replaceAll ampTok "&".data (replaceAll raceTok "\x7d".data
        (replaceAll laceTok "\x7b".data X)))) = false ∧
    hasSub ampTok
      (normWs (replaceAll ampTok "&".data (replaceAll raceTok "\x7d".data
        (replaceAll laceTok "\x7b".data X)))) = false := by
  have h1A : hasSub laceTok (replaceAll laceTok "\x7b".data X) = false :=
    replaceAll_rm laceTok "\x7b".data (by decide) (by decide) (by decide) X
  have h1B : hasSub laceTok
      (replaceAll raceTok "\x7d".data (replaceAll laceTok "\x7b".data X)) = false :=
    replaceAll_keep laceTok raceTok "\x7d".data (by decide) (by decide) (by decide) _ h1A
  have h1C : hasSub laceTok (replaceAll ampTok "&".data
      (replaceAll raceTok "\x7d".data (replaceAll laceTok "\x7b".data X))) = false :=
    replaceAll_keep laceTok ampTok "&".data (by decide) (by decide) (by decide) _ h1B
  have h2A : hasSub raceTok
      (replaceAll raceTok "\x7d".data (replaceAll laceTok "\x7b".data X)) = false :=
    replaceAll_rm raceTok "\x7d".data (by decide) (by decide) (by decide) _
  have h2B : hasSub raceTok (replaceAll ampTok "&".data
      (replaceAll raceTok "\x7d".data (replaceAll laceTok "\x7b".data X))) = false :=
    replaceAll_keep raceTok ampTok "&".data (by decide) (by decide) (by decide) _ h2A
  have h3A : hasSub ampTok (replaceAll ampTok "&".data
      (replaceAll raceTok "\x7d".data (replaceAll laceTok "\x7b".data X))) = false :=
    replaceAll_rm ampTok "&".data (by decide) (by decide) (by decide) _
  exact ⟨normWs_keep laceTok (by decide) (by decide) _ h1C,
    normWs_keep raceTok (by decide) (by decide) _ h2B,
    normWs_keep ampTok (by decide) (by decide) _ h3A⟩

/-- No placeholder token survives the pipeline suffix of the converter. -/
theorem postEnv_no_token (m : List Char) :
    hasSub laceTok (postEnv m) = false ∧ hasSub raceTok (postEnv m) = false ∧
      hasSub ampTok (postEnv m) = false := by
  unfold postEnv
  exact restore_no_token _

theorem not_occurs_of_hasSub_false (T l : List Char) (h : hasSub T l = false) :
    ¬ (T <:+: l) := by
  induction l with
  | nil =>
    intro hinf
    have h2 : T = [] := by
      obtain ⟨s, t, hst⟩ := hinf
      have h5 := List.append_eq_nil.mp hst
      exact (List.append_eq_nil.mp h5.1).2
    subst h2
    simp [hasSub, List.isEmpty] at h
  | cons c t ih =>
    intro hinf
    rw [List.infix_cons_iff] at hinf
    rw [hasSub, Bool.or_eq_false_iff] at h
    rcases hinf with h2 | h2
    · rw [List.isPrefixOf_iff_prefix.mpr h2] at h
      exact absurd h.1 (by decide)
    · exact ih h.2 h2

set_option maxRecDepth 1000000 in
set_option maxHeartbeats 1000000 in
/-- Claim C7 (amended): the collision half of the claim fails (see the
counterexample: placeholder text in the input is rewritten, and the three
collision equations below show each token turning into its restored
character), but the re-substitution half holds universally: for every
input string the converter output contains no placeholder token. -/
theorem claim_C7 :
    (∀ s : String, ¬ (laceTok <:+: (latex_to_plaintext s).data) ∧
      ¬ (raceTok <:+: (latex_to_plaintext s).data) ∧
      ¬ (ampTok <:+: (latex_to_plaintext s).data)) ∧
    (latex_to_plaintext "__LACE_BRACE__" = "\x7b" ∧
      latex_to_plaintext "__RACE_BRACE__" = "\x7d" ∧
      latex_to_plaintext "__LATEXCLIP_ESC_AMP__" = "&") := by
  constructor
  · intro s
    rw [show latex_to_plaintext s = String.mk (convert s.data) from rfl]
    rw [mk_data]
    rw [show (∀ l, convert l = postEnv (envLoopRun (preEnv l))) from fun l => rfl]
    obtain ⟨h1, h2, h3⟩ := postEnv_no_token (envLoopRun (preEnv s.data))
    exact ⟨not_occurs_of_hasSub_false _ _ h1, not_occurs_of_hasSub_false _ _ h2,
      not_occurs_of_hasSub_false _ _ h3⟩
  · refine ⟨by decide, by decide, by decide⟩

end LatexClip
